import Mathlib

/-!
Verification of the moveOverlay recognition-to-analysis pipeline.

The Rust sources are shallowly embedded: `f32` values become `ℚ` (exact
rational arithmetic), strings become `List Char` processed by structurally
recursive helpers mirroring the Rust standard-library functions, and
fallible operations return `Option`/`Except`.
-/

namespace MoveOverlay

/-! ## String helpers (models of the Rust `str` methods used by the sources) -/

/-- Model of Rust `str::starts_with` on character lists. -/
def startsWithL : List Char → List Char → Bool
  | [], _ => true
  | _ :: _, [] => false
  | p :: ps, c :: cs => p = c && startsWithL ps cs

/-- Model of Rust `str::contains` (substring search) on character lists. -/
def containsL (pat : List Char) : List Char → Bool
  | [] => startsWithL pat []
  | c :: cs => startsWithL pat (c :: cs) || containsL pat cs

/-- Model of Rust `str::starts_with`. -/
def startsWithStr (s pat : String) : Bool := startsWithL pat.data s.data

/-- Model of Rust `str::contains` for substring patterns. -/
def containsStr (s pat : String) : Bool := containsL pat.data s.data

/-- Model of Rust `str::trim`: strip leading and trailing whitespace. -/
def trimL (s : List Char) : List Char :=
  ((s.dropWhile Char.isWhitespace).reverse.dropWhile Char.isWhitespace).reverse

/-- Model of Rust `str::trim`. -/
def trimStr (s : String) : String := String.mk (trimL s.data)

/-- Accumulating worker for `splitWhitespaceL`. -/
def splitWsAux : List Char → List Char → List (List Char)
  | [], cur => if cur = [] then [] else [cur.reverse]
  | c :: cs, cur =>
      if c.isWhitespace then
        if cur = [] then splitWsAux cs [] else cur.reverse :: splitWsAux cs []
      else splitWsAux cs (c :: cur)

/-- Model of Rust `str::split_whitespace`: whitespace-separated tokens, no empties. -/
def splitWhitespaceStr (s : String) : List String :=
  (splitWsAux s.data []).map String.mk

/-- Fuel-driven worker for `splitOnStr`; the fuel is an upper bound on the
number of characters still to be consumed, so it never runs out at call sites. -/
def splitOnFuel (pat : List Char) : Nat → List Char → List Char → List (List Char)
  | 0, s, acc => [acc.reverse ++ s]
  | _ + 1, [], acc => [acc.reverse]
  | fuel + 1, c :: cs, acc =>
      if startsWithL pat (c :: cs) then
        acc.reverse :: splitOnFuel pat fuel ((c :: cs).drop pat.length) []
      else
        splitOnFuel pat fuel cs (c :: acc)

/-- Model of Rust `str::split(pat)` for a non-empty pattern: leftmost
non-overlapping splitting. -/
def splitOnStr (s pat : String) : List String :=
  (splitOnFuel pat.data (s.data.length + 1) s.data []).map String.mk

/-- Model of Rust `str::parse::<u32>` restricted to the small numerals the
engine actually emits (overflow of `u32` is not modelled). -/
def parseNatL : List Char → Option ℕ
  | [] => none
  | l => if l.all Char.isDigit then some (l.foldl (fun n c => 10 * n + (c.toNat - 48)) 0) else none

/-- Model of Rust `str::parse::<u32>` on strings. -/
def parseNatStr (s : String) : Option ℕ := parseNatL s.data

/-! ## `src/yolo.rs`: detections, IoU and non-maximum suppression -/

namespace Yolo

/-- `Detection` from `src/yolo.rs` (`f32` fields become `ℚ`). -/
structure Detection where
  x : ℚ
  y : ℚ
  w : ℚ
  h : ℚ
  class_id : ℕ
  confidence : ℚ
deriving DecidableEq

/-- `Detection::bounds`: axis-aligned corners `(x1, y1, x2, y2)`. -/
def Detection.bounds (d : Detection) : ℚ × ℚ × ℚ × ℚ :=
  (d.x - d.w / 2, d.y - d.h / 2, d.x + d.w / 2, d.y + d.h / 2)

/-- `calculate_iou` from `src/yolo.rs`. -/
def calculate_iou (a b : Detection) : ℚ :=
  let (ax1, ay1, ax2, ay2) := a.bounds
  let (bx1, by1, bx2, by2) := b.bounds
  let inter_x1 := max ax1 bx1
  let inter_y1 := max ay1 by1
  let inter_x2 := min ax2 bx2
  let inter_y2 := min ay2 by2
  if inter_x2 < inter_x1 ∨ inter_y2 < inter_y1 then 0
  else
    let inter_area := (inter_x2 - inter_x1) * (inter_y2 - inter_y1)
    inter_area / (a.w * a.h + b.w * b.h - inter_area)

/-- The greedy suppression loop of `non_maximum_suppression`: keep the head,
drop every remaining detection overlapping it beyond the threshold, recurse.
This is the standard functional rendering of the `active` flag array loop.
The fuel argument (any bound on the list length) only drives structural
recursion; it is never exhausted when `l.length ≤ fuel`. -/
def nmsKeepFuel (iou_threshold : ℚ) : ℕ → List Detection → List Detection
  | 0, _ => []
  | _ + 1, [] => []
  | fuel + 1, d :: rest =>
      d :: nmsKeepFuel iou_threshold fuel
        (rest.filter (fun e => ¬ iou_threshold < calculate_iou d e))

/-- The greedy suppression loop at its call-site fuel. -/
def nmsKeep (iou_threshold : ℚ) (l : List Detection) : List Detection :=
  nmsKeepFuel iou_threshold l.length l

/-- `non_maximum_suppression` from `src/yolo.rs`: stable sort by descending
confidence, then greedy suppression.  Rust's stable `sort_by` on the
descending-confidence comparator is modelled by insertion sort with the
non-strict comparator, which is also stable. -/
def non_maximum_suppression (detections : List Detection) (iou_threshold : ℚ) :
    List Detection :=
  nmsKeep iou_threshold
    (detections.insertionSort (fun a b => b.confidence ≤ a.confidence))

end Yolo

/-! ## `src/chess_logic.rs`: move geometry and board reconstruction -/

namespace ChessLogic

open Yolo

/-- `Orientation` from `src/chess_logic.rs`. -/
inductive Orientation where
  | WhiteBottom
  | BlackBottom
deriving DecidableEq

/-- `Rect` from `src/chess_logic.rs`. -/
structure Rect where
  x : ℚ
  y : ℚ
  w : ℚ
  h : ℚ
deriving DecidableEq

/-- `(file as u8).checked_sub(b'a')`: the Rust `char`-to-`u8` cast truncates
the codepoint to its low byte, then the checked subtraction of 97. -/
def char_to_col (c : Char) : Option ℕ :=
  let b := c.toNat % 256
  if b < 97 then none else some (b - 97)

/-- Rust `char::to_digit(10)`: the value of an ASCII decimal digit. -/
def to_digit10 (c : Char) : Option ℕ :=
  if '0' ≤ c ∧ c ≤ '9' then some (c.toNat - 48) else none

/-- `8 - rank.to_digit(10)?` computed in `u32` arithmetic: the subtraction
wraps modulo `2^32` (release semantics) when the digit exceeds 8. -/
def rank_to_row (c : Char) : Option ℕ :=
  (to_digit10 c).map fun d => (((8 : ℤ) - d) % 2 ^ 32).toNat

/-- The decoding phase of `move_to_rect` (lines 22–38).  The Rust guard is
`move_str.len() < 4`, a UTF-8 **byte** length (`String.utf8ByteSize`); after
it passes, the code collects `chars: Vec<char>` and indexes `chars[0]` to
`chars[3]` unconditionally, which panics for a string of at least 4 bytes
but fewer than 4 characters.  `Except.error` models that panic; `.ok none`
the early `None` return; `.ok (some _)` the four per-character decodes,
producing `(start_col, end_col, start_row, end_row)` before the orientation
flip. -/
def decode_move (move_str : String) : Except String (Option (ℕ × ℕ × ℕ × ℕ)) :=
  if move_str.utf8ByteSize < 4 then .ok none
  else
    match move_str.data with
    | start_file :: start_rank :: end_file :: end_rank :: _ =>
      match char_to_col start_file, char_to_col end_file,
            rank_to_row start_rank, rank_to_row end_rank with
      | some sc, some ec, some sr, some er => .ok (some (sc, ec, sr, er))
      | _, _, _, _ => .ok none
    | _ => .error "index out of bounds"

/-- `move_to_rect` from `src/chess_logic.rs`: decode a 4-character move code,
apply the orientation flip, range-check, and map both squares to pixel cell
centers.  `Except.error` propagates the char-indexing panic of
`decode_move`; the normal Rust return value is the inner `Option`. -/
def move_to_rect (move_str : String) (board_rect : Rect) (orientation : Orientation) :
    Except String (Option (ℚ × ℚ × ℚ × ℚ)) :=
  match decode_move move_str with
  | .error e => .error e
  | .ok none => .ok none
  | .ok (some (sc, ec, sr, er)) =>
    let start_col : ℚ := sc
    let end_col : ℚ := ec
    let start_row : ℚ := sr
    let end_row : ℚ := er
    let (start_col, end_col, start_row, end_row) :=
      match orientation with
      | .BlackBottom => (7 - start_col, 7 - end_col, 7 - start_row, 7 - end_row)
      | .WhiteBottom => (start_col, end_col, start_row, end_row)
    if start_col < 0 ∨ 7 < start_col ∨ start_row < 0 ∨ 7 < start_row then .ok none
    else if end_col < 0 ∨ 7 < end_col ∨ end_row < 0 ∨ 7 < end_row then .ok none
    else
      let cell_w := board_rect.w / 8
      let cell_h := board_rect.h / 8
      .ok (some (board_rect.x + start_col * cell_w + cell_w / 2,
                 board_rect.y + start_row * cell_h + cell_h / 2,
                 board_rect.x + end_col * cell_w + cell_w / 2,
                 board_rect.y + end_row * cell_h + cell_h / 2))

/-- `detect_orientation` from `src/chess_logic.rs`: compare the average
vertical centers of white pawns (class 6) and black pawns (class 12).
The Rust single-pass accumulation of sums and counts is written with
`filter`/`sum`, which computes the same four quantities. -/
def detect_orientation (detections : List Detection) (_board_rect : Rect) : Orientation :=
  let whites := detections.filter (fun d => d.class_id = 6)
  let blacks := detections.filter (fun d => d.class_id = 12)
  let white_count := whites.length
  let black_count := blacks.length
  let white_y_sum := (whites.map (fun d => d.y)).sum
  let black_y_sum := (blacks.map (fun d => d.y)).sum
  if white_count = 0 ∨ black_count = 0 then .WhiteBottom
  else
    let avg_white_y := white_y_sum / (white_count : ℚ)
    let avg_black_y := black_y_sum / (black_count : ℚ)
    if avg_black_y < avg_white_y then .WhiteBottom else .BlackBottom

/-- The per-detection grid-cell mapping inside `detections_to_fen`
(lines 148–171): bounds check against the board box, floor division by the
cell size, and the orientation mapping from visual to board-relative cells.
Returns `(row, col)`. -/
def point_to_square (bx1 by1 bx2 by2 : ℚ) (orientation : Orientation) (cx cy : ℚ) :
    Option (ℕ × ℕ) :=
  if cx < bx1 ∨ bx2 < cx ∨ cy < by1 ∨ by2 < cy then none
  else
    let cell_w := (bx2 - bx1) / 8
    let cell_h := (by2 - by1) / 8
    let v_col := (⌊(cx - bx1) / cell_w⌋).toNat
    let v_row := (⌊(cy - by1) / cell_h⌋).toNat
    if v_col < 8 ∧ v_row < 8 then
      some (match orientation with
            | .WhiteBottom => (v_row, v_col)
            | .BlackBottom => (7 - v_row, 7 - v_col))
    else none

/-- `RawPiece` from `src/chess_logic.rs`. -/
structure RawPiece where
  row : ℕ
  col : ℕ
  class_id : ℕ
  confidence : ℚ
deriving DecidableEq

instance : Inhabited RawPiece := ⟨⟨0, 0, 0, 0⟩⟩

/-- `class_id_to_fen` from `src/chess_logic.rs`. -/
def class_id_to_fen (id : ℕ) : Char :=
  if id = 1 then 'K'
  else if id = 2 then 'Q'
  else if id = 3 then 'R'
  else if id = 4 then 'B'
  else if id = 5 then 'N'
  else if id = 6 then 'P'
  else if id = 7 then 'k'
  else if id = 8 then 'q'
  else if id = 9 then 'r'
  else if id = 10 then 'b'
  else if id = 11 then 'n'
  else if id = 12 then 'p'
  else '?'

/-- The piece-collection loop of `detections_to_fen`: skip the board class,
map the detection center to a board cell, keep in-range results. -/
def detToRaw (bx1 by1 bx2 by2 : ℚ) (orientation : Orientation) (det : Detection) :
    Option RawPiece :=
  if det.class_id = 0 then none
  else
    match point_to_square bx1 by1 bx2 by2 orientation det.x det.y with
    | some (row, col) => some ⟨row, col, det.class_id, det.confidence⟩
    | none => none

/-- The duplicate-king heuristic of `detections_to_fen` (lines 174–206):
when at least two white kings and no black kings were resolved, reclassify
the white king with the smallest row (strict-minimum scan starting from the
sentinel 999) as a black king. -/
def fixDuplicateKings (raw_pieces : List RawPiece) : List RawPiece :=
  let white_kings := (List.range raw_pieces.length).filter
      (fun i => (raw_pieces.getD i default).class_id = 1)
  let black_kings := (List.range raw_pieces.length).filter
      (fun i => (raw_pieces.getD i default).class_id = 7)
  if 2 ≤ white_kings.length ∧ black_kings = [] then
    let scan := white_kings.foldl
      (fun (acc : ℕ × ℕ) idx =>
        if (raw_pieces.getD idx default).row < acc.1
        then ((raw_pieces.getD idx default).row, idx) else acc)
      (999, 999)
    if scan.2 ≠ 999 then
      raw_pieces.set scan.2
        { raw_pieces.getD scan.2 default with class_id := 7 }
    else raw_pieces
  else raw_pieces

/-- A grid cell write `grid[row][col] = Some piece` on the nested-list grid. -/
def gridSet (g : List (List (Option Char))) (row col : ℕ) (v : Option Char) :
    List (List (Option Char)) :=
  g.set row ((g.getD row []).set col v)

/-- The 8×8 all-empty grid. -/
def emptyGrid : List (List (Option Char)) :=
  List.replicate 8 (List.replicate 8 (none : Option Char))

/-- The row-serialization loop of `detections_to_fen` (lines 216–236):
run-length-encode empty cells, emit piece characters, flush the final run. -/
def rowToFenAux : List (Option Char) → ℕ → String → String
  | [], empty_count, row_str =>
      if 0 < empty_count then row_str ++ Nat.repr empty_count else row_str
  | some p :: rest, empty_count, row_str =>
      rowToFenAux rest 0
        ((if 0 < empty_count then row_str ++ Nat.repr empty_count else row_str).push p)
  | none :: rest, empty_count, row_str => rowToFenAux rest (empty_count + 1) row_str

/-- Serialize one grid row into its placement field. -/
def rowToFen (cells : List (Option Char)) : String := rowToFenAux cells 0 ""

/-- The board-anchor selection of `detections_to_fen` (lines 101–108):
among board-class detections larger than the 0.2 minimum size, the
highest-confidence one; `max_by` returns the last maximum on ties. -/
def pickBoard (detections : List Detection) : Option Detection :=
  (detections.filter
      (fun d => d.class_id = 0 ∧ 1/5 < d.w ∧ 1/5 < d.h)).foldl
    (fun (acc : Option Detection) d =>
      match acc with
      | none => some d
      | some m => if m.confidence ≤ d.confidence then some d else some m)
    none

/-- `detections_to_fen` from `src/chess_logic.rs`: pick the board anchor,
resolve piece detections to cells, apply the duplicate-king heuristic, fill
the grid, and serialize the placement string. -/
def detections_to_fen (detections : List Detection) (orientation : Orientation) :
    String × Rect :=
  match pickBoard detections with
  | none => ("8/8/8/8/8/8/8/8", ⟨0, 0, 0, 0⟩)
  | some b =>
    let (bx1, by1, bx2, by2) := b.bounds
    let board_w := bx2 - bx1
    let board_h := by2 - by1
    let raw_pieces := detections.filterMap (detToRaw bx1 by1 bx2 by2 orientation)
    let raw_pieces := fixDuplicateKings raw_pieces
    let grid := raw_pieces.foldl
      (fun g p => gridSet g p.row p.col (some (class_id_to_fen p.class_id)))
      emptyGrid
    let fen_parts := grid.map rowToFen
    (String.intercalate "/" fen_parts, ⟨bx1, by1, board_w, board_h⟩)

/-- The algebraic move code both of whose squares are `(col, row)` in
board-relative coordinates: file letter `'a' + col`, rank digit
`'1' + (7 - row)` (so row 0 is rank 8).  Used to state the grid round-trip
property. -/
def squareMoveStr (col row : ℕ) : String :=
  String.mk [Char.ofNat (97 + col), Char.ofNat (56 - row),
             Char.ofNat (97 + col), Char.ofNat (56 - row)]

end ChessLogic

/-! ## `src/vision/board.rs`: the validating board reconstructor -/

namespace VisionBoard

/-- `Detection` from `src/vision/inference.rs`: `bbox` is `[x, y, w, h]`. -/
structure VDetection where
  class_id : ℕ
  confidence : ℚ
  bbox0 : ℚ
  bbox1 : ℚ
  bbox2 : ℚ
  bbox3 : ℚ
deriving DecidableEq

/-- The `class_to_piece` closure of `src/vision/board.rs`, composed with the
piece-to-FEN-character rendering of the `shakmaty` board (uppercase white,
lowercase black).  Classes outside 1–12 yield no piece. -/
def vclass_to_char (id : ℕ) : Option Char :=
  if id = 1 then some 'K'
  else if id = 2 then some 'Q'
  else if id = 3 then some 'R'
  else if id = 4 then some 'B'
  else if id = 5 then some 'N'
  else if id = 6 then some 'P'
  else if id = 7 then some 'k'
  else if id = 8 then some 'q'
  else if id = 9 then some 'r'
  else if id = 10 then some 'b'
  else if id = 11 then some 'n'
  else if id = 12 then some 'p'
  else none

/-- One iteration of the piece loop in `vision/board.rs`
`detections_to_fen`: place the detected piece on the grid when its cell is
in range.  The grid row index is the code's `row` (the FEN serialization of
the `shakmaty` board prints rank 8 = `row` 0 first, so rows serialize in
order 0..7, matching `ChessLogic.rowToFen`). -/
def placeDetection (bx byy bw bh : ℚ) (g : List (List (Option Char)))
    (d : VDetection) : List (List (Option Char)) :=
  if d.class_id = 0 then g
  else
    match vclass_to_char d.class_id with
    | none => g
    | some c =>
      let rel_x := (d.bbox0 - bx) / bw
      let rel_y := (d.bbox1 - byy) / bh
      let col := ⌊rel_x * 8⌋
      let row := ⌊rel_y * 8⌋
      if 0 ≤ col ∧ col < 8 ∧ 0 ≤ row ∧ row < 8 then
        ChessLogic.gridSet g row.toNat col.toNat (some c)
      else g

/-- White-king count of `vision/board.rs`: every detection whose class maps
to a white king, counted before any bounds check. -/
def white_king_count (detections : List VDetection) : ℕ :=
  (detections.filter (fun d => d.class_id = 1)).length

/-- Black-king count of `vision/board.rs`. -/
def black_king_count (detections : List VDetection) : ℕ :=
  (detections.filter (fun d => d.class_id = 7)).length

/-- `detections_to_fen` from `src/vision/board.rs`: board box lookup with a
640×640 fallback, grid fill, exactly-one-king-per-color validation, and the
`shakmaty` FEN rendering `"<placement> <turn> - - 0 1"`. -/
def detections_to_fen (detections : List VDetection) (show_white_moves : Bool) :
    Option String :=
  let board_box := detections.find? (fun d => d.class_id = 0)
  let (bx, byy, bw, bh) :=
    match board_box with
    | some b => (b.bbox0 - b.bbox2 / 2, b.bbox1 - b.bbox3 / 2, b.bbox2, b.bbox3)
    | none => ((0 : ℚ), (0 : ℚ), (640 : ℚ), (640 : ℚ))
  let grid := detections.foldl (placeDetection bx byy bw bh) ChessLogic.emptyGrid
  if white_king_count detections ≠ 1 ∨ black_king_count detections ≠ 1 then none
  else
    let placement := String.intercalate "/" (grid.map ChessLogic.rowToFen)
    let turn := if show_white_moves then "w" else "b"
    some (placement ++ " " ++ turn ++ " - - 0 1")

end VisionBoard

/-! ## `src/engine.rs`: `Stockfish::get_top_moves` -/

namespace Engine

/-- `get_token_value` from `src/engine.rs`: the whitespace token following
the first token equal to `token`. -/
def get_token_value (line token : String) : Option String :=
  tokenAfter (MoveOverlay.splitWhitespaceStr line) token
where
  /-- Scan the token list for the first occurrence of `token`. -/
  tokenAfter : List String → String → Option String
    | [], _ => none
    | p :: rest, token => if p = token then rest.head? else tokenAfter rest token

/-- The per-line map update of the `get_top_moves` read loop: on a
`multipv`/`pv` info line, record the PV index's first move, overwriting any
earlier entry for that index (`HashMap::insert`). -/
def gtmUpdate (m : List (ℕ × String)) (trimmed : String) : List (ℕ × String) :=
  if startsWithStr trimmed "info" ∧ containsStr trimmed " multipv " ∧
      containsStr trimmed " pv " then
    match get_token_value trimmed "multipv", get_token_value trimmed "pv" with
    | some multipv_idx, some pv_move =>
      match parseNatStr multipv_idx with
      | some idx =>
        if m.any (fun p => p.1 = idx)
        then m.map (fun p => if p.1 = idx then (idx, pv_move) else p)
        else m ++ [(idx, pv_move)]
      | none => m
    | _, _ => m
  else m

/-- The sorted extraction at the `bestmove` line of `get_top_moves`: the
recorded moves in ascending PV-index order. -/
def sortedValues (m : List (ℕ × String)) : List String :=
  ((m.map Prod.fst).insertionSort (· ≤ ·)).filterMap fun idx => m.lookup idx

/-- The read loop of `get_top_moves` over a finite list of engine output
lines; an exhausted list models `read_line` returning 0 bytes (EOF). -/
def gtmLoop : List String → List (ℕ × String) → Except String (List String)
  | [], _ => .error "Engine process closed stream"
  | line :: rest, top_moves =>
    let trimmed := trimStr line
    let top_moves := gtmUpdate top_moves trimmed
    if startsWithStr trimmed "bestmove" then
      if top_moves = [] then
        let parts := splitWhitespaceStr trimmed
        match parts.get? 1 with
        | some mv => .ok [mv]
        | none => .ok (sortedValues top_moves)
      else .ok (sortedValues top_moves)
    else gtmLoop rest top_moves

/-- `Stockfish::get_top_moves` from `src/engine.rs`, as a function of the
engine's output lines (the sent `position`/`go` commands have no effect on
the returned value). -/
def get_top_moves (_fen : String) (_depth : ℕ) (lines : List String) :
    Except String (List String) :=
  gtmLoop lines []

end Engine

/-! ## `src/engine/stockfish.rs`: `Stockfish::analyze` -/

namespace EngineStockfish

/-- One read observed by the `analyze` loop: either an I/O error from
`read_line` or a line (the empty line models EOF). -/
inductive ReadEv where
  | ioError (msg : String)
  | line (s : String)
deriving DecidableEq

/-- The move-collection step of the `analyze` loop: on an
`info depth ... pv ...` line, push the first move after the first `" pv "`
separator unless it is empty or already collected. -/
def collectStep (moves : List String) (l : String) : List String :=
  if containsStr l "info depth" ∧ containsStr l " pv " then
    match (splitOnStr l " pv ").get? 1 with
    | some pv_part =>
      let best_move := (splitWhitespaceStr pv_part).headD ""
      if best_move ≠ "" ∧ ¬ moves.contains best_move then moves ++ [best_move]
      else moves
    | none => moves
  else moves

/-- The read loop of `Stockfish::analyze` over timestamped read events: each
event carries the wall-clock elapsed time observed at the top of that
iteration.  The result records the collected moves and whether `stop` was
sent (the timeout branch).  An exhausted event list stands for a stream that
was never read further. -/
def analyzeLoop (timeout : ℚ) : List (ℚ × ReadEv) → List String →
    Except String (List String × Bool)
  | [], moves => .ok (moves, false)
  | (elapsed, ev) :: rest, moves =>
    if timeout < elapsed then .ok (moves, true)
    else
      match ev with
      | .ioError msg => .error msg
      | .line l =>
        if l = "" then .ok (moves, false)
        else if containsStr l "bestmove" then .ok (moves, false)
        else analyzeLoop timeout rest (collectStep moves l)

/-- `Stockfish::analyze` from `src/engine/stockfish.rs`, as a function of
the timestamped reads after `go` was sent: run the read loop, then keep the
most recent `lines` collected moves, best-last reversed to best-first. -/
def analyze (timeout : ℚ) (events : List (ℚ × ReadEv)) (lines : ℕ) :
    Except String (List String) :=
  (analyzeLoop timeout events []).map fun r => (r.1.reverse.take lines)

/-- The moves collected by the `analyze` read loop over a sequence of read
events: line events pass through `collectStep`, error events collect
nothing (used to state what the loop has gathered so far). -/
def collectEvents (evs : List (ℚ × ReadEv)) (acc : List String) : List String :=
  evs.foldl (fun acc p =>
    match p.2 with
    | .line l => collectStep acc l
    | .ioError _ => acc) acc

end EngineStockfish

/-! ## Placement-string measures (used to state the rank-shape invariants) -/

/-- The board-cell weight of one placement character: an empty-run digit
counts its numeric value, any other character counts one cell. -/
def charWeight (c : Char) : ℕ := if c.isDigit then c.toNat - 48 else 1

/-- The total cell weight of a placement rank field. -/
def fieldWeight (s : String) : ℕ := (s.data.map charWeight).sum

/-! ## Concrete inputs used by witnesses and counterexamples -/

namespace Inputs

open Yolo ChessLogic

/-- Chain counterexample, highest confidence: box `[0,4]×[0,1]`. -/
def nmsA : Detection := ⟨2, 1/2, 4, 1, 3, 9/10⟩

/-- Chain counterexample, middle confidence: box `[1,5]×[0,1]`. -/
def nmsB : Detection := ⟨3, 1/2, 4, 1, 4, 8/10⟩

/-- Chain counterexample, lowest confidence: box `[2,6]×[0,1]`. -/
def nmsC : Detection := ⟨4, 1/2, 4, 1, 5, 7/10⟩

/-- Two disjoint detections far apart. -/
def farA : Detection := ⟨0, 0, 1, 1, 1, 9/10⟩

/-- Second disjoint detection. -/
def farB : Detection := ⟨10, 10, 1, 1, 2, 8/10⟩

/-- A board detection covering `[0,1]×[0,1]`. -/
def boardDet : Detection := ⟨1/2, 1/2, 1, 1, 0, 9/10⟩

/-- A white king detected in visual row 1, column 0 of `boardDet`. -/
def wkRow1 : Detection := ⟨1/16, 3/16, 1/16, 1/16, 1, 9/10⟩

/-- A white king detected in visual row 4, column 0 of `boardDet`. -/
def wkRow4 : Detection := ⟨1/16, 9/16, 1/16, 1/16, 1, 9/10⟩

/-- A white king detected in visual row 6, column 0 of `boardDet`. -/
def wkRow6 : Detection := ⟨1/16, 13/16, 1/16, 1/16, 1, 9/10⟩

/-- A white pawn near the bottom of the board (visual row 6). -/
def wpBottom : Detection := ⟨5/16, 13/16, 1/16, 1/16, 6, 9/10⟩

/-- A black pawn near the top of the board (visual row 1). -/
def bpTop : Detection := ⟨5/16, 3/16, 1/16, 1/16, 12, 9/10⟩

/-- A white pawn (vision model) for the king-validation witness. -/
def vWhiteKing : VisionBoard.VDetection := ⟨1, 9/10, 100, 500, 20, 20⟩

end Inputs

/-! ## Non-maximum suppression: shared lemmas -/

namespace Yolo

theorem calculate_iou_comm (a b : Detection) : calculate_iou a b = calculate_iou b a := by
  unfold calculate_iou Detection.bounds
  simp only
  rw [max_comm (a.x - a.w / 2), min_comm (a.x + a.w / 2),
    max_comm (a.y - a.h / 2), min_comm (a.y + a.h / 2)]
  split_ifs with h
  · rfl
  · ring_nf

theorem nmsKeepFuel_subset (t : ℚ) :
    ∀ (fuel : ℕ) (l : List Detection), ∀ x ∈ nmsKeepFuel t fuel l, x ∈ l := by
  intro fuel
  induction fuel with
  | zero => intro l x hx; simp [nmsKeepFuel] at hx
  | succ n ih =>
    intro l x hx
    match l with
    | [] => simp [nmsKeepFuel] at hx
    | d :: rest =>
      simp only [nmsKeepFuel, List.mem_cons] at hx
      rcases hx with h | h
      · exact h ▸ List.mem_cons_self d rest
      · exact List.mem_cons_of_mem d (List.mem_of_mem_filter (ih _ x h))

theorem nmsKeepFuel_pairwise (t : ℚ) :
    ∀ (fuel : ℕ) (l : List Detection), l.length ≤ fuel →
      (nmsKeepFuel t fuel l).Pairwise (fun a b => calculate_iou a b ≤ t) := by
  intro fuel
  induction fuel with
  | zero => intro l _; simp [nmsKeepFuel]
  | succ n ih =>
    intro l hl
    match l with
    | [] => simp [nmsKeepFuel]
    | d :: rest =>
      simp only [nmsKeepFuel]
      constructor
      · intro b hb
        have hbf := nmsKeepFuel_subset t n _ b hb
        have := List.of_mem_filter hbf
        simpa using not_lt.mp (by simpa using this)
      · exact ih _ (le_trans (List.length_filter_le _ _)
          (Nat.le_of_succ_le_succ hl))

/-- The pairwise bound, for the full `non_maximum_suppression`. -/
theorem nms_pairwise (dets : List Detection) (t : ℚ) :
    (non_maximum_suppression dets t).Pairwise (fun a b => calculate_iou a b ≤ t) := by
  unfold non_maximum_suppression nmsKeep
  exact nmsKeepFuel_pairwise t _ _ le_rfl

/-- The pairwise relation is symmetric, so it applies to any two distinct
members of the output. -/
theorem nms_mem_iou_le (dets : List Detection) (t : ℚ) {a b : Detection}
    (ha : a ∈ non_maximum_suppression dets t) (hb : b ∈ non_maximum_suppression dets t)
    (hne : a ≠ b) : calculate_iou a b ≤ t := by
  refine (nms_pairwise dets t).forall ?_ ha hb hne
  intro x y hxy
  calc calculate_iou y x = calculate_iou x y := calculate_iou_comm y x
  _ ≤ t := hxy

end Yolo

/-! ## Claim C2: NMS and overlapping pairs -/

/-- C2, counterexample.  The claim states that for every pre-suppression pair
with IoU above the threshold, NMS removes exactly the lower-confidence member
and retains the higher-confidence one.  In the suppression chain
`nmsA`–`nmsB`–`nmsC` the pair `(nmsB, nmsC)` has IoU `3/5 > 1/2`, yet the
higher-confidence `nmsB` is removed (suppressed by `nmsA`) and the
lower-confidence `nmsC` is retained. -/
theorem nms_removes_lower_member_counterexample :
    (1 : ℚ)/2 < Yolo.calculate_iou Inputs.nmsB Inputs.nmsC ∧
    Inputs.nmsC.confidence < Inputs.nmsB.confidence ∧
    Inputs.nmsB ∉ Yolo.non_maximum_suppression [Inputs.nmsA, Inputs.nmsB, Inputs.nmsC] (1/2) ∧
    Inputs.nmsC ∈ Yolo.non_maximum_suppression [Inputs.nmsA, Inputs.nmsB, Inputs.nmsC] (1/2) := by
  have hout : Yolo.non_maximum_suppression [Inputs.nmsA, Inputs.nmsB, Inputs.nmsC] (1/2)
      = [Inputs.nmsA, Inputs.nmsC] := by
    norm_num [Yolo.non_maximum_suppression, Yolo.nmsKeep, Yolo.nmsKeepFuel,
      Yolo.calculate_iou, Yolo.Detection.bounds, List.insertionSort, List.orderedInsert,
      Inputs.nmsA, Inputs.nmsB, Inputs.nmsC]
  refine ⟨?_, ?_, ?_, ?_⟩
  · norm_num [Yolo.calculate_iou, Yolo.Detection.bounds, Inputs.nmsB, Inputs.nmsC]
  · norm_num [Inputs.nmsB, Inputs.nmsC]
  · rw [hout]; norm_num [Inputs.nmsA, Inputs.nmsB, Inputs.nmsC]
  · rw [hout]; simp

/-- C2, amended: for every pair of pre-suppression detections whose IoU
exceeds the threshold, non-maximum suppression never retains both members;
in particular, whenever the lower-confidence member is retained, the
higher-confidence member was removed (it was itself suppressed by an even
higher-confidence detection). -/
theorem nms_overlapping_pair_not_both_retained (t : ℚ) (dets : List Yolo.Detection)
    (a b : Yolo.Detection) (_ha : a ∈ dets) (_hb : b ∈ dets)
    (_hconf : b.confidence ≤ a.confidence) (hne : a ≠ b)
    (hiou : t < Yolo.calculate_iou a b)
    (hbk : b ∈ Yolo.non_maximum_suppression dets t) :
    a ∉ Yolo.non_maximum_suppression dets t := by
  intro hak
  exact absurd (Yolo.nms_mem_iou_le dets t hak hbk hne) (not_le.mpr hiou)

/-- Witness for the amended C2 theorem at the concrete chain input. -/
theorem nms_overlapping_pair_not_both_retained_witness :
    Inputs.nmsB ∉ Yolo.non_maximum_suppression [Inputs.nmsA, Inputs.nmsB, Inputs.nmsC] (1/2) :=
  nms_overlapping_pair_not_both_retained (1/2) [Inputs.nmsA, Inputs.nmsB, Inputs.nmsC]
    Inputs.nmsB Inputs.nmsC (by simp) (by simp)
    (by norm_num [Inputs.nmsB, Inputs.nmsC])
    (by norm_num [Inputs.nmsB, Inputs.nmsC, Yolo.Detection.mk.injEq])
    (by norm_num [Yolo.calculate_iou, Yolo.Detection.bounds, Inputs.nmsB, Inputs.nmsC])
    (by
      have hout : Yolo.non_maximum_suppression [Inputs.nmsA, Inputs.nmsB, Inputs.nmsC] (1/2)
          = [Inputs.nmsA, Inputs.nmsC] := by
        norm_num [Yolo.non_maximum_suppression, Yolo.nmsKeep, Yolo.nmsKeepFuel,
          Yolo.calculate_iou, Yolo.Detection.bounds, List.insertionSort, List.orderedInsert,
          Inputs.nmsA, Inputs.nmsB, Inputs.nmsC]
      rw [hout]; simp)

/-! ## Claim C7: retained detections overlap at most the threshold -/

/-- C7: any two distinct detections retained by non-maximum suppression have
IoU at most the threshold.  The statement carries no constraint on the class
identities of `a` and `b`: suppression is class-agnostic. -/
theorem nms_retained_pairwise_iou_le (t : ℚ) (dets : List Yolo.Detection)
    (a b : Yolo.Detection)
    (ha : a ∈ Yolo.non_maximum_suppression dets t)
    (hb : b ∈ Yolo.non_maximum_suppression dets t) (hne : a ≠ b) :
    Yolo.calculate_iou a b ≤ t :=
  Yolo.nms_mem_iou_le dets t ha hb hne

/-- Witness for C7 at two retained detections of different classes. -/
theorem nms_retained_pairwise_iou_le_witness :
    Yolo.calculate_iou Inputs.farA Inputs.farB ≤ 1/2 := by
  have hout : Yolo.non_maximum_suppression [Inputs.farA, Inputs.farB] (1/2)
      = [Inputs.farA, Inputs.farB] := by
    norm_num [Yolo.non_maximum_suppression, Yolo.nmsKeep, Yolo.nmsKeepFuel,
      Yolo.calculate_iou, Yolo.Detection.bounds, List.insertionSort, List.orderedInsert,
      Inputs.farA, Inputs.farB]
  exact nms_retained_pairwise_iou_le (1/2) [Inputs.farA, Inputs.farB] Inputs.farA Inputs.farB
    (by rw [hout]; simp) (by rw [hout]; simp)
    (by norm_num [Inputs.farA, Inputs.farB, Yolo.Detection.mk.injEq])

/-! ## Claim C9: orientation inference -/

/-- C9: orientation inference is total (it is a Lean function) and: with no
white-pawn or no black-pawn detections it returns `WhiteBottom`; otherwise it
returns `WhiteBottom` exactly when the white pawns' average vertical center
strictly exceeds the black pawns' average, and `BlackBottom` otherwise. -/
theorem detect_orientation_spec (dets : List Yolo.Detection) (rect : ChessLogic.Rect) :
    (((dets.filter (fun d => d.class_id = 6)).length = 0 ∨
      (dets.filter (fun d => d.class_id = 12)).length = 0) →
        ChessLogic.detect_orientation dets rect = .WhiteBottom) ∧
    (((dets.filter (fun d => d.class_id = 6)).length ≠ 0 ∧
      (dets.filter (fun d => d.class_id = 12)).length ≠ 0) →
      (ChessLogic.detect_orientation dets rect = .WhiteBottom ↔
        ((dets.filter (fun d => d.class_id = 12)).map (fun d => d.y)).sum /
            ((dets.filter (fun d => d.class_id = 12)).length : ℚ) <
        ((dets.filter (fun d => d.class_id = 6)).map (fun d => d.y)).sum /
            ((dets.filter (fun d => d.class_id = 6)).length : ℚ)) ∧
      (ChessLogic.detect_orientation dets rect = .BlackBottom ↔
        ¬ (((dets.filter (fun d => d.class_id = 12)).map (fun d => d.y)).sum /
            ((dets.filter (fun d => d.class_id = 12)).length : ℚ) <
        ((dets.filter (fun d => d.class_id = 6)).map (fun d => d.y)).sum /
            ((dets.filter (fun d => d.class_id = 6)).length : ℚ)))) := by
  unfold ChessLogic.detect_orientation
  constructor
  · intro h
    rw [if_pos h]
  · intro h
    rw [if_neg (by rintro (h1 | h2); exacts [h.1 h1, h.2 h2])]
    constructor
    · constructor
      · intro heq
        by_contra hlt
        rw [if_neg hlt] at heq
        exact absurd heq (by simp)
      · intro hlt
        rw [if_pos hlt]
    · constructor
      · intro heq hlt
        rw [if_pos hlt] at heq
        exact absurd heq (by simp)
      · intro hlt
        rw [if_neg hlt]

/-- Witness for C9: a white pawn below the black pawn yields `WhiteBottom`. -/
theorem detect_orientation_spec_witness :
    ChessLogic.detect_orientation [Inputs.wpBottom, Inputs.bpTop] ⟨0, 0, 1, 1⟩
      = .WhiteBottom :=
  (((detect_orientation_spec [Inputs.wpBottom, Inputs.bpTop] ⟨0, 0, 1, 1⟩).2
      (by norm_num [Inputs.wpBottom, Inputs.bpTop])).1).mpr
    (by norm_num [Inputs.wpBottom, Inputs.bpTop])

/-! ## Claim C8: totality and rejection behavior of `move_to_rect` -/

/-- A byte-length of at least 4 with fewer than 4 characters lands in the
panic branch of the decode. -/
theorem decode_move_short (s : String) (hb : ¬ s.utf8ByteSize < 4)
    (hl : s.data.length < 4) :
    ChessLogic.decode_move s = .error "index out of bounds" := by
  unfold ChessLogic.decode_move
  rw [if_neg hb]
  rcases hdata : s.data with _ | ⟨c1, _ | ⟨c2, _ | ⟨c3, _ | ⟨c4, rest⟩⟩⟩⟩ <;>
    rw [hdata] at hl
  simp only [List.length_cons] at hl
  omega

/-- After a successful decode, the result of `move_to_rect` is `some` iff all
four decoded coordinates lie in `[0, 7]` (for both orientations), `none`
otherwise, and never a panic. -/
theorem move_to_rect_of_decode_some (s : String) (rect : ChessLogic.Rect)
    (o : ChessLogic.Orientation) (sc ec sr er : ℕ)
    (hd : ChessLogic.decode_move s = .ok (some (sc, ec, sr, er))) :
    ((∃ p, ChessLogic.move_to_rect s rect o = .ok (some p)) ↔
      (sc ≤ 7 ∧ ec ≤ 7 ∧ sr ≤ 7 ∧ er ≤ 7)) ∧
    ((ChessLogic.move_to_rect s rect o = .ok none) ↔
      ¬ (sc ≤ 7 ∧ ec ≤ 7 ∧ sr ≤ 7 ∧ er ≤ 7)) ∧
    (∀ e, ChessLogic.move_to_rect s rect o ≠ .error e) := by
  cases o
  · have hcond : (¬ ((sc : ℚ) < 0 ∨ 7 < (sc : ℚ) ∨ (sr : ℚ) < 0 ∨ 7 < (sr : ℚ)) ∧
        ¬ ((ec : ℚ) < 0 ∨ 7 < (ec : ℚ) ∨ (er : ℚ) < 0 ∨ 7 < (er : ℚ))) ↔
        (sc ≤ 7 ∧ ec ≤ 7 ∧ sr ≤ 7 ∧ er ≤ 7) := by
      simp only [not_or, not_lt]
      constructor
      · rintro ⟨⟨_, a2, _, a4⟩, ⟨_, b2, _, b4⟩⟩
        exact ⟨by exact_mod_cast a2, by exact_mod_cast b2,
          by exact_mod_cast a4, by exact_mod_cast b4⟩
      · rintro ⟨a, b, c, d⟩
        exact ⟨⟨Nat.cast_nonneg sc, by exact_mod_cast a, Nat.cast_nonneg sr,
            by exact_mod_cast c⟩,
          ⟨Nat.cast_nonneg ec, by exact_mod_cast b, Nat.cast_nonneg er,
            by exact_mod_cast d⟩⟩
    simp only [ChessLogic.move_to_rect, hd]
    split_ifs with hp1 hp2
    · refine ⟨?_, ?_, ?_⟩
      · constructor
        · rintro ⟨p, hp⟩
          exact absurd hp (by simp)
        · intro hr
          exact absurd hp1 (hcond.mpr hr).1
      · exact ⟨fun _ hr => (hcond.mpr hr).1 hp1, fun _ => rfl⟩
      · intro e
        simp
    · refine ⟨?_, ?_, ?_⟩
      · constructor
        · rintro ⟨p, hp⟩
          exact absurd hp (by simp)
        · intro hr
          exact absurd hp2 (hcond.mpr hr).2
      · exact ⟨fun _ hr => (hcond.mpr hr).2 hp2, fun _ => rfl⟩
      · intro e
        simp
    · refine ⟨?_, ?_, ?_⟩
      · exact ⟨fun _ => hcond.mp ⟨hp1, hp2⟩, fun _ => ⟨_, rfl⟩⟩
      · constructor
        · intro h
          exact absurd h (by simp)
        · intro hnr
          exact absurd (hcond.mp ⟨hp1, hp2⟩) hnr
      · intro e
        simp
  · have hcond : (¬ (7 - (sc : ℚ) < 0 ∨ 7 < 7 - (sc : ℚ) ∨ 7 - (sr : ℚ) < 0 ∨
          7 < 7 - (sr : ℚ)) ∧
        ¬ (7 - (ec : ℚ) < 0 ∨ 7 < 7 - (ec : ℚ) ∨ 7 - (er : ℚ) < 0 ∨
          7 < 7 - (er : ℚ))) ↔
        (sc ≤ 7 ∧ ec ≤ 7 ∧ sr ≤ 7 ∧ er ≤ 7) := by
      have hax : ∀ n : ℕ, (¬ (7 - (n : ℚ) < 0) ∧ ¬ (7 < 7 - (n : ℚ))) ↔ n ≤ 7 := by
        intro n
        constructor
        · rintro ⟨a, -⟩
          have : (n : ℚ) ≤ 7 := by linarith [not_lt.mp a]
          exact_mod_cast this
        · intro hn
          have h7 : (n : ℚ) ≤ 7 := by exact_mod_cast hn
          have h0 : (0 : ℚ) ≤ (n : ℚ) := Nat.cast_nonneg n
          exact ⟨by simp only [not_lt]; linarith, by simp only [not_lt]; linarith⟩
      simp only [not_or]
      constructor
      · rintro ⟨⟨a1, a2, a3, a4⟩, ⟨b1, b2, b3, b4⟩⟩
        exact ⟨(hax sc).mp ⟨a1, a2⟩, (hax ec).mp ⟨b1, b2⟩,
          (hax sr).mp ⟨a3, a4⟩, (hax er).mp ⟨b3, b4⟩⟩
      · rintro ⟨a, b, c, d⟩
        exact ⟨⟨((hax sc).mpr a).1, ((hax sc).mpr a).2,
            ((hax sr).mpr c).1, ((hax sr).mpr c).2⟩,
          ⟨((hax ec).mpr b).1, ((hax ec).mpr b).2,
            ((hax er).mpr d).1, ((hax er).mpr d).2⟩⟩
    simp only [ChessLogic.move_to_rect, hd]
    split_ifs with hp1 hp2
    · refine ⟨?_, ?_, ?_⟩
      · constructor
        · rintro ⟨p, hp⟩
          exact absurd hp (by simp)
        · intro hr
          exact absurd hp1 (hcond.mpr hr).1
      · exact ⟨fun _ hr => (hcond.mpr hr).1 hp1, fun _ => rfl⟩
      · intro e
        simp
    · refine ⟨?_, ?_, ?_⟩
      · constructor
        · rintro ⟨p, hp⟩
          exact absurd hp (by simp)
        · intro hr
          exact absurd hp2 (hcond.mpr hr).2
      · exact ⟨fun _ hr => (hcond.mpr hr).2 hp2, fun _ => rfl⟩
      · intro e
        simp
    · refine ⟨?_, ?_, ?_⟩
      · exact ⟨fun _ => hcond.mp ⟨hp1, hp2⟩, fun _ => ⟨_, rfl⟩⟩
      · constructor
        · intro h
          exact absurd h (by simp)
        · intro hnr
          exact absurd (hcond.mp ⟨hp1, hp2⟩) hnr
      · intro e
        simp

/-- C8, counterexample.  The claim asserts `move_to_rect` evaluates totally
without panic on every input string and without arithmetic underflow.  Both
clauses fail: the Rust length guard counts UTF-8 bytes, so the string `"éé"`
(4 bytes, 2 characters) passes it and the subsequent `chars[2]` indexing
panics; and for rank character '9' the `u32` computation `8 - 9` underflows,
wrapping to `2^32 - 1` (which the range check then rejects, giving `None`). -/
theorem move_to_rect_claim_counterexample :
    ChessLogic.move_to_rect "éé" ⟨0, 0, 8, 8⟩ .WhiteBottom
      = .error "index out of bounds" ∧
    "éé".utf8ByteSize = 4 ∧ "éé".data.length = 2 ∧
    ChessLogic.rank_to_row '9' = some 4294967295 ∧
    ¬ ((8 : ℤ) - 9 = ((4294967295 : ℕ) : ℤ)) ∧
    ChessLogic.move_to_rect "a9a1" ⟨0, 0, 8, 8⟩ .WhiteBottom = .ok none := by
  refine ⟨by rfl, by rfl, by rfl, by rfl, by norm_num, by rfl⟩

/-- C8, amended: `move_to_rect` panics (modelled as `Except.error`) exactly
on the inputs whose UTF-8 byte length is at least 4 but with fewer than 4
characters, where the byte-length guard passes and the `chars[0..3]`
indexing goes out of bounds; on every other input it evaluates without
panic, returning a value exactly when the code decodes (the rank subtraction
wrapping modulo `2^32` for digit 9 rather than being checked) with all four
coordinates in `[0, 7]`, and `None` whenever the code is malformed or a
coordinate is out of range. -/
theorem move_to_rect_characterization (s : String) (rect : ChessLogic.Rect)
    (o : ChessLogic.Orientation) :
    (ChessLogic.move_to_rect s rect o = .error "index out of bounds" ↔
      (4 ≤ s.utf8ByteSize ∧ s.data.length < 4)) ∧
    ((∃ p, ChessLogic.move_to_rect s rect o = .ok (some p)) ↔
      (∃ sc ec sr er : ℕ, ChessLogic.decode_move s = .ok (some (sc, ec, sr, er)) ∧
        sc ≤ 7 ∧ ec ≤ 7 ∧ sr ≤ 7 ∧ er ≤ 7)) ∧
    (ChessLogic.move_to_rect s rect o = .ok none ↔
      (¬ (4 ≤ s.utf8ByteSize ∧ s.data.length < 4) ∧
       ¬ (∃ sc ec sr er : ℕ, ChessLogic.decode_move s = .ok (some (sc, ec, sr, er)) ∧
          sc ≤ 7 ∧ ec ≤ 7 ∧ sr ≤ 7 ∧ er ≤ 7))) := by
  by_cases hb : s.utf8ByteSize < 4
  · have hdecv : ChessLogic.decode_move s = .ok none := by
      unfold ChessLogic.decode_move
      rw [if_pos hb]
    have hmv : ChessLogic.move_to_rect s rect o = .ok none := by
      simp only [ChessLogic.move_to_rect, hdecv]
    refine ⟨?_, ?_, ?_⟩
    · rw [hmv]
      constructor
      · intro h
        exact absurd h (by simp)
      · rintro ⟨h4, -⟩
        omega
    · rw [hmv]
      constructor
      · rintro ⟨p, hp⟩
        exact absurd hp (by simp)
      · rintro ⟨sc, ec, sr, er, hdec, -⟩
        rw [hdecv] at hdec
        exact absurd hdec (by simp)
    · rw [hmv]
      refine ⟨fun _ => ⟨fun h => by omega, ?_⟩, fun _ => rfl⟩
      rintro ⟨sc, ec, sr, er, hdec, -⟩
      rw [hdecv] at hdec
      exact absurd hdec (by simp)
  · by_cases hl : s.data.length < 4
    · have hdecv := decode_move_short s hb hl
      have hmv : ChessLogic.move_to_rect s rect o = .error "index out of bounds" := by
        simp only [ChessLogic.move_to_rect, hdecv]
      refine ⟨?_, ?_, ?_⟩
      · rw [hmv]
        exact ⟨fun _ => ⟨by omega, hl⟩, fun _ => rfl⟩
      · rw [hmv]
        constructor
        · rintro ⟨p, hp⟩
          exact absurd hp (by simp)
        · rintro ⟨sc, ec, sr, er, hdec, -⟩
          rw [hdecv] at hdec
          exact absurd hdec (by simp)
      · rw [hmv]
        constructor
        · intro h
          exact absurd h (by simp)
        · rintro ⟨hA, -⟩
          exact absurd ⟨by omega, hl⟩ hA
    · rcases hdata : s.data with _ | ⟨c1, _ | ⟨c2, _ | ⟨c3, _ | ⟨c4, rest⟩⟩⟩⟩ <;>
        rw [hdata] at hl
      · exact absurd (by simp) hl
      · exact absurd (by simp) hl
      · exact absurd (by simp) hl
      · exact absurd (by simp) hl
      · rcases h1 : ChessLogic.char_to_col c1 with _ | sc <;>
          rcases h3 : ChessLogic.char_to_col c3 with _ | ec <;>
          rcases h2 : ChessLogic.rank_to_row c2 with _ | sr <;>
          rcases h4 : ChessLogic.rank_to_row c4 with _ | er
        all_goals
          first
          | (have hdecv : ChessLogic.decode_move s = .ok none := by
               unfold ChessLogic.decode_move
               rw [if_neg hb, hdata]
               simp [h1, h2, h3, h4]
             have hmv : ChessLogic.move_to_rect s rect o = .ok none := by
               simp only [ChessLogic.move_to_rect, hdecv]
             refine ⟨?_, ?_, ?_⟩
             · rw [hmv]
               constructor
               · intro h
                 exact absurd h (by simp)
               · rintro ⟨-, hlen⟩
                 exact absurd hlen hl
             · rw [hmv]
               constructor
               · rintro ⟨p, hp⟩
                 exact absurd hp (by simp)
               · rintro ⟨sc', ec', sr', er', hdec, -⟩
                 rw [hdecv] at hdec
                 exact absurd hdec (by simp)
             · rw [hmv]
               refine ⟨fun _ => ⟨?_, ?_⟩, fun _ => rfl⟩
               · rintro ⟨-, hlen⟩
                 exact hl hlen
               · rintro ⟨sc', ec', sr', er', hdec, -⟩
                 rw [hdecv] at hdec
                 exact absurd hdec (by simp))
          | (have hdecv : ChessLogic.decode_move s
                 = .ok (some (sc, ec, sr, er)) := by
               unfold ChessLogic.decode_move
               rw [if_neg hb, hdata]
               simp [h1, h2, h3, h4]
             obtain ⟨hsome, hnone, herr⟩ :=
               move_to_rect_of_decode_some s rect o sc ec sr er hdecv
             have hexists : (∃ sc' ec' sr' er' : ℕ,
                 ChessLogic.decode_move s = .ok (some (sc', ec', sr', er')) ∧
                 sc' ≤ 7 ∧ ec' ≤ 7 ∧ sr' ≤ 7 ∧ er' ≤ 7) ↔
                 (sc ≤ 7 ∧ ec ≤ 7 ∧ sr ≤ 7 ∧ er ≤ 7) := by
               constructor
               · rintro ⟨sc', ec', sr', er', hdec, hb1, hb2, hb3, hb4⟩
                 rw [hdecv] at hdec
                 obtain ⟨rfl, rfl, rfl, rfl⟩ :
                     sc = sc' ∧ ec = ec' ∧ sr = sr' ∧ er = er' := by
                   simpa [Prod.ext_iff] using hdec
                 exact ⟨hb1, hb2, hb3, hb4⟩
               · rintro ⟨hb1, hb2, hb3, hb4⟩
                 exact ⟨sc, ec, sr, er, hdecv, hb1, hb2, hb3, hb4⟩
             refine ⟨?_, hsome.trans hexists.symm, ?_⟩
             · constructor
               · intro h
                 exact absurd h (herr _)
               · rintro ⟨-, hlen⟩
                 exact absurd hlen hl
             · rw [hnone, ← hexists]
               constructor
               · intro h
                 refine ⟨?_, h⟩
                 rintro ⟨-, hlen⟩
                 exact hl hlen
               · rintro ⟨-, h⟩
                 exact h)

/-! ## Claim C6: grid mapping round-trip -/

theorem char_to_col_ofNat (n : ℕ) (h : n ≤ 7) :
    ChessLogic.char_to_col (Char.ofNat (97 + n)) = some n := by
  interval_cases n <;> rfl

theorem rank_to_row_ofNat (r : ℕ) (h : r ≤ 7) :
    ChessLogic.rank_to_row (Char.ofNat (56 - r)) = some r := by
  interval_cases r <;> rfl

theorem decode_squareMoveStr (col row : ℕ) (hc : col ≤ 7) (hr : row ≤ 7) :
    ChessLogic.decode_move (ChessLogic.squareMoveStr col row)
      = .ok (some (col, col, row, row)) := by
  interval_cases col <;> interval_cases row <;> rfl

/-- One axis of the round-trip: the cell center lies inside the board length
and floors back to its cell index. -/
theorem cell_center_axis (base w : ℚ) (c : ℕ) (hw : 0 < w) (hc : c ≤ 7) :
    ¬ (base + (c:ℚ) * (w/8) + (w/8)/2 < base) ∧
    ¬ (base + w < base + (c:ℚ) * (w/8) + (w/8)/2) ∧
    (⌊(base + (c:ℚ) * (w/8) + (w/8)/2 - base) / ((base + w - base)/8)⌋).toNat = c := by
  have h8 : (0:ℚ) < w/8 := by positivity
  have hcq : (c:ℚ) ≤ 7 := by exact_mod_cast hc
  have hc0 : (0:ℚ) ≤ c := Nat.cast_nonneg c
  refine ⟨by nlinarith, by nlinarith, ?_⟩
  have hwne : w ≠ 0 := ne_of_gt hw
  have hsimp : (base + (c:ℚ) * (w/8) + (w/8)/2 - base) / ((base + w - base)/8)
      = (c:ℚ) + 1/2 := by
    field_simp
    ring
  rw [hsimp]
  have hfl : ⌊(c:ℚ) + 1/2⌋ = (c : ℤ) := by
    rw [Int.floor_eq_iff]
    constructor
    · push_cast; linarith
    · push_cast; linarith
  rw [hfl]
  simp

/-- C6: for every square `(col, row)` in `[0,7]×[0,7]`, every orientation and
every board rectangle of positive width and height, mapping the square to its
screen cell center through `move_to_rect` and mapping that point back through
the board reconstructor's cell mapping `point_to_square` returns the original
square. -/
theorem grid_roundtrip (col row : ℕ) (hc : col ≤ 7) (hr : row ≤ 7)
    (o : ChessLogic.Orientation) (rect : ChessLogic.Rect)
    (hw : 0 < rect.w) (hh : 0 < rect.h) :
    ∃ x1 y1 x2 y2,
      ChessLogic.move_to_rect (ChessLogic.squareMoveStr col row) rect o
        = .ok (some (x1, y1, x2, y2)) ∧
      ChessLogic.point_to_square rect.x rect.y (rect.x + rect.w) (rect.y + rect.h) o x1 y1
        = some (row, col) := by
  have hdec := decode_squareMoveStr col row hc hr
  have hcq : (col:ℚ) ≤ 7 := by exact_mod_cast hc
  have hrq : (row:ℚ) ≤ 7 := by exact_mod_cast hr
  cases o with
  | WhiteBottom =>
    have hx := cell_center_axis rect.x rect.w col hw hc
    have hy := cell_center_axis rect.y rect.h row hh hr
    have hmv : ChessLogic.move_to_rect (ChessLogic.squareMoveStr col row) rect .WhiteBottom =
        .ok (some (rect.x + (col:ℚ) * (rect.w/8) + (rect.w/8)/2,
              rect.y + (row:ℚ) * (rect.h/8) + (rect.h/8)/2,
              rect.x + (col:ℚ) * (rect.w/8) + (rect.w/8)/2,
              rect.y + (row:ℚ) * (rect.h/8) + (rect.h/8)/2)) := by
      simp only [ChessLogic.move_to_rect, hdec]
      rw [if_neg (by
        simp only [not_or, not_lt]
        exact ⟨Nat.cast_nonneg _, hcq, Nat.cast_nonneg _, hrq⟩)]
      rw [if_neg (by
        simp only [not_or, not_lt]
        exact ⟨Nat.cast_nonneg _, hcq, Nat.cast_nonneg _, hrq⟩)]
    have hps : ChessLogic.point_to_square rect.x rect.y (rect.x + rect.w) (rect.y + rect.h)
        .WhiteBottom (rect.x + (col:ℚ) * (rect.w/8) + (rect.w/8)/2)
        (rect.y + (row:ℚ) * (rect.h/8) + (rect.h/8)/2) = some (row, col) := by
      unfold ChessLogic.point_to_square
      rw [if_neg (by
        simp only [not_or, not_lt]
        exact ⟨not_lt.mp hx.1, not_lt.mp hx.2.1, not_lt.mp hy.1, not_lt.mp hy.2.1⟩)]
      simp only [hx.2.2, hy.2.2]
      rw [if_pos ⟨by omega, by omega⟩]
    exact ⟨_, _, _, _, hmv, hps⟩
  | BlackBottom =>
    have hcast_c : (7:ℚ) - (col:ℚ) = ((7 - col : ℕ) : ℚ) := by
      push_cast [hc]; ring
    have hcast_r : (7:ℚ) - (row:ℚ) = ((7 - row : ℕ) : ℚ) := by
      push_cast [hr]; ring
    have hx := cell_center_axis rect.x rect.w (7 - col) hw (by omega)
    have hy := cell_center_axis rect.y rect.h (7 - row) hh (by omega)
    have hmv : ChessLogic.move_to_rect (ChessLogic.squareMoveStr col row) rect .BlackBottom =
        .ok (some (rect.x + ((7 - col : ℕ):ℚ) * (rect.w/8) + (rect.w/8)/2,
              rect.y + ((7 - row : ℕ):ℚ) * (rect.h/8) + (rect.h/8)/2,
              rect.x + ((7 - col : ℕ):ℚ) * (rect.w/8) + (rect.w/8)/2,
              rect.y + ((7 - row : ℕ):ℚ) * (rect.h/8) + (rect.h/8)/2)) := by
      simp only [ChessLogic.move_to_rect, hdec]
      rw [if_neg (by
        simp only [not_or, not_lt]
        refine ⟨by linarith, by linarith [Nat.cast_nonneg (α := ℚ) col],
          by linarith, by linarith [Nat.cast_nonneg (α := ℚ) row]⟩)]
      rw [if_neg (by
        simp only [not_or, not_lt]
        refine ⟨by linarith, by linarith [Nat.cast_nonneg (α := ℚ) col],
          by linarith, by linarith [Nat.cast_nonneg (α := ℚ) row]⟩)]
      rw [hcast_c, hcast_r]
    have hps : ChessLogic.point_to_square rect.x rect.y (rect.x + rect.w) (rect.y + rect.h)
        .BlackBottom (rect.x + ((7 - col : ℕ):ℚ) * (rect.w/8) + (rect.w/8)/2)
        (rect.y + ((7 - row : ℕ):ℚ) * (rect.h/8) + (rect.h/8)/2) = some (row, col) := by
      unfold ChessLogic.point_to_square
      rw [if_neg (by
        simp only [not_or, not_lt]
        exact ⟨not_lt.mp hx.1, not_lt.mp hx.2.1, not_lt.mp hy.1, not_lt.mp hy.2.1⟩)]
      simp only [hx.2.2, hy.2.2]
      rw [if_pos ⟨by omega, by omega⟩]
      have h1 : 7 - (7 - row) = row := by omega
      have h2 : 7 - (7 - col) = col := by omega
      simp [h1, h2]
    exact ⟨_, _, _, _, hmv, hps⟩

/-- Witness for C6 at square `(3, 2)` on the unit board rectangle. -/
theorem grid_roundtrip_witness :
    ∃ x1 y1 x2 y2,
      ChessLogic.move_to_rect (ChessLogic.squareMoveStr 3 2) ⟨0, 0, 8, 8⟩ .WhiteBottom
        = .ok (some (x1, y1, x2, y2)) ∧
      ChessLogic.point_to_square 0 0 (0 + 8) (0 + 8) .WhiteBottom x1 y1 = some (2, 3) :=
  grid_roundtrip 3 2 (by norm_num) (by norm_num) .WhiteBottom ⟨0, 0, 8, 8⟩
    (by norm_num) (by norm_num)

/-! ## Claim C10: placement string shape -/

section FenShape

open ChessLogic

theorem fieldWeight_append (a b : String) :
    fieldWeight (a ++ b) = fieldWeight a + fieldWeight b := by
  show ((a.data ++ b.data).map charWeight).sum = _
  simp [fieldWeight]

theorem fieldWeight_push (s : String) (c : Char) :
    fieldWeight (s.push c) = fieldWeight s + charWeight c := by
  show ((s.data ++ [c]).map charWeight).sum = _
  simp [fieldWeight, charWeight]

theorem repr_weight (n : ℕ) (h1 : 1 ≤ n) (h2 : n ≤ 8) :
    fieldWeight (Nat.repr n) = n := by
  interval_cases n <;> decide

theorem repr_noslash (n : ℕ) (h2 : n ≤ 8) : ∀ c ∈ (Nat.repr n).data, c ≠ '/' := by
  interval_cases n <;> decide

theorem rowToFenAux_weight :
    ∀ (cells : List (Option Char)) (cnt : ℕ) (s : String),
      cnt + cells.length ≤ 8 →
      (∀ c : Char, some c ∈ cells → ¬ c.isDigit) →
      fieldWeight (rowToFenAux cells cnt s) = fieldWeight s + cnt + cells.length := by
  intro cells
  induction cells with
  | nil =>
    intro cnt s hle _
    simp only [List.length_nil, Nat.add_zero] at hle ⊢
    by_cases h : 0 < cnt
    · simp only [rowToFenAux, if_pos h, fieldWeight_append, repr_weight cnt h hle]
    · simp only [rowToFenAux, if_neg h]
      omega
  | cons hd tl ih =>
    intro cnt s hle hgood
    simp only [List.length_cons] at hle
    rcases hd with _ | p
    · simp only [rowToFenAux]
      rw [ih (cnt + 1) s (by omega) (fun c hc => hgood c (by simp [hc]))]
      simp only [List.length_cons]
      ring
    · have hp : ¬ p.isDigit := hgood p (by simp)
      have hflush : fieldWeight ((if 0 < cnt then s ++ Nat.repr cnt else s).push p)
          = fieldWeight s + cnt + 1 := by
        by_cases h : 0 < cnt
        · rw [if_pos h, fieldWeight_push, fieldWeight_append,
            repr_weight cnt h (by omega)]
          simp [charWeight, hp]
        · rw [if_neg h, fieldWeight_push]
          have h0 : cnt = 0 := by omega
          subst h0
          simp [charWeight, hp]
      simp only [rowToFenAux]
      rw [ih 0 _ (by omega) (fun c hc => hgood c (by simp [hc])), hflush]
      simp only [List.length_cons]
      ring

theorem rowToFenAux_noslash :
    ∀ (cells : List (Option Char)) (cnt : ℕ) (s : String),
      cnt + cells.length ≤ 8 →
      (∀ c : Char, some c ∈ cells → c ≠ '/') →
      (∀ c ∈ s.data, c ≠ '/') →
      ∀ c ∈ (rowToFenAux cells cnt s).data, c ≠ '/' := by
  intro cells
  induction cells with
  | nil =>
    intro cnt s hle _ hs
    simp only [List.length_nil, Nat.add_zero] at hle
    by_cases h : 0 < cnt
    · simp only [rowToFenAux, if_pos h]
      intro c hc
      rcases (by simpa using hc : c ∈ s.data ∨ c ∈ (Nat.repr cnt).data) with h' | h'
      · exact hs c h'
      · exact repr_noslash cnt hle c h'
    · simpa only [rowToFenAux, if_neg h] using hs
  | cons hd tl ih =>
    intro cnt s hle hgood hs
    simp only [List.length_cons] at hle
    rcases hd with _ | p
    · simp only [rowToFenAux]
      exact ih (cnt + 1) s (by omega) (fun c hc => hgood c (by simp [hc])) hs
    · simp only [rowToFenAux]
      refine ih 0 _ (by omega) (fun c hc => hgood c (by simp [hc])) ?_
      intro c hc
      have hmem : c ∈ (if 0 < cnt then s ++ Nat.repr cnt else s).data ∨ c = p := by
        simpa [String.push] using hc
      rcases hmem with h' | rfl
      · by_cases h : 0 < cnt
        · rw [if_pos h] at h'
          rcases (by simpa using h' : c ∈ s.data ∨ c ∈ (Nat.repr cnt).data) with h'' | h''
          · exact hs c h''
          · exact repr_noslash cnt (by omega) c h''
        · rw [if_neg h] at h'
          exact hs c h'
      · exact hgood c (by simp)

theorem rowToFen_weight (cells : List (Option Char)) (hlen : cells.length = 8)
    (hgood : ∀ c : Char, some c ∈ cells → ¬ c.isDigit) :
    fieldWeight (rowToFen cells) = 8 := by
  unfold rowToFen
  rw [rowToFenAux_weight cells 0 "" (by omega) hgood]
  simp [fieldWeight, hlen]

theorem rowToFen_noslash (cells : List (Option Char)) (hlen : cells.length ≤ 8)
    (hgood : ∀ c : Char, some c ∈ cells → c ≠ '/') :
    ∀ c ∈ (rowToFen cells).data, c ≠ '/' :=
  rowToFenAux_noslash cells 0 "" (by omega) hgood (by simp)

theorem class_id_to_fen_good (id : ℕ) :
    ¬ (class_id_to_fen id).isDigit ∧ class_id_to_fen id ≠ '/' := by
  by_cases h : id ≤ 12
  · interval_cases id <;> decide
  · have h9 : class_id_to_fen id = '?' := by
      unfold class_id_to_fen
      repeat rw [if_neg (by omega)]
    rw [h9]
    decide

theorem point_to_square_lt (bx1 by1 bx2 by2 : ℚ) (o : Orientation) (cx cy : ℚ)
    (r c : ℕ) (h : point_to_square bx1 by1 bx2 by2 o cx cy = some (r, c)) :
    r < 8 ∧ c < 8 := by
  simp only [point_to_square] at h
  by_cases h1 : cx < bx1 ∨ bx2 < cx ∨ cy < by1 ∨ by2 < cy
  · rw [if_pos h1] at h
    exact absurd h (by simp)
  · rw [if_neg h1] at h
    by_cases h2 : (⌊(cx - bx1) / ((bx2 - bx1) / 8)⌋).toNat < 8 ∧
        (⌊(cy - by1) / ((by2 - by1) / 8)⌋).toNat < 8
    · rw [if_pos h2] at h
      cases o with
      | WhiteBottom =>
        simp only [Option.some.injEq, Prod.mk.injEq] at h
        obtain ⟨rfl, rfl⟩ := h
        exact ⟨h2.2, h2.1⟩
      | BlackBottom =>
        simp only [Option.some.injEq, Prod.mk.injEq] at h
        obtain ⟨rfl, rfl⟩ := h
        omega
    · rw [if_neg h2] at h
      exact absurd h (by simp)

theorem detToRaw_bounds (bx1 by1 bx2 by2 : ℚ) (o : Orientation) (det : Yolo.Detection)
    (p : RawPiece) (h : detToRaw bx1 by1 bx2 by2 o det = some p) :
    p.row < 8 ∧ p.col < 8 := by
  unfold detToRaw at h
  by_cases h0 : det.class_id = 0
  · rw [if_pos h0] at h
    exact absurd h (by simp)
  · rw [if_neg h0] at h
    rcases hps : point_to_square bx1 by1 bx2 by2 o det.x det.y with _ | ⟨r, c⟩ <;>
      rw [hps] at h
    · exact absurd h (by simp)
    · simp only [Option.some.injEq] at h
      obtain rfl := h.symm
      exact point_to_square_lt bx1 by1 bx2 by2 o det.x det.y r c hps

theorem getD_bounds (ps : List RawPiece) (i : ℕ)
    (h : ∀ q ∈ ps, q.row < 8 ∧ q.col < 8) :
    (ps.getD i default).row < 8 ∧ (ps.getD i default).col < 8 := by
  by_cases hi : i < ps.length
  · rw [List.getD_eq_getElem ps default hi]
    exact h _ (List.getElem_mem hi)
  · rw [List.getD_eq_default ps default (le_of_not_lt hi)]
    exact ⟨by norm_num [default], by norm_num [default]⟩

theorem fixDuplicateKings_bounds (ps : List RawPiece)
    (h : ∀ q ∈ ps, q.row < 8 ∧ q.col < 8) :
    ∀ p ∈ fixDuplicateKings ps, p.row < 8 ∧ p.col < 8 := by
  intro p hp
  simp only [fixDuplicateKings] at hp
  split_ifs at hp
  · rcases List.mem_or_eq_of_mem_set hp with h' | rfl
    · exact h p h'
    · exact getD_bounds ps _ h
  · exact h p hp
  · exact h p hp

theorem gridSet_shape (g : List (List (Option Char))) (r c : ℕ) (ch : Char)
    (hr : r < 8) (hlen : g.length = 8) (hrows : ∀ row ∈ g, row.length = 8)
    (hcells : ∀ row ∈ g, ∀ oc ∈ row, ∀ p : Char, oc = some p → ¬ p.isDigit ∧ p ≠ '/')
    (hch : ¬ ch.isDigit ∧ ch ≠ '/') :
    (gridSet g r c (some ch)).length = 8 ∧
    (∀ row ∈ gridSet g r c (some ch), row.length = 8) ∧
    (∀ row ∈ gridSet g r c (some ch), ∀ oc ∈ row, ∀ p : Char,
        oc = some p → ¬ p.isDigit ∧ p ≠ '/') := by
  have hmemD : g.getD r [] ∈ g := by
    rw [List.getD_eq_getElem g [] (by omega)]
    exact List.getElem_mem (by omega)
  refine ⟨by simp [gridSet, hlen], ?_, ?_⟩
  · intro row hrow
    rcases List.mem_or_eq_of_mem_set hrow with h' | rfl
    · exact hrows row h'
    · rw [List.length_set]
      exact hrows _ hmemD
  · intro row hrow oc hoc p hp
    rcases List.mem_or_eq_of_mem_set hrow with h' | rfl
    · exact hcells row h' oc hoc p hp
    · rcases List.mem_or_eq_of_mem_set hoc with h'' | rfl
      · exact hcells _ hmemD oc h'' p hp
      · cases hp
        exact hch

theorem foldl_gridSet_shape :
    ∀ (ps : List RawPiece) (g : List (List (Option Char))),
      (∀ q ∈ ps, q.row < 8 ∧ q.col < 8) →
      g.length = 8 → (∀ row ∈ g, row.length = 8) →
      (∀ row ∈ g, ∀ oc ∈ row, ∀ p : Char, oc = some p → ¬ p.isDigit ∧ p ≠ '/') →
      (ps.foldl (fun g p => gridSet g p.row p.col (some (class_id_to_fen p.class_id))) g).length = 8 ∧
      (∀ row ∈ ps.foldl (fun g p => gridSet g p.row p.col (some (class_id_to_fen p.class_id))) g,
        row.length = 8) ∧
      (∀ row ∈ ps.foldl (fun g p => gridSet g p.row p.col (some (class_id_to_fen p.class_id))) g,
        ∀ oc ∈ row, ∀ p : Char, oc = some p → ¬ p.isDigit ∧ p ≠ '/') := by
  intro ps
  induction ps with
  | nil => intro g _ h1 h2 h3; exact ⟨h1, h2, h3⟩
  | cons hd tl ih =>
    intro g hb h1 h2 h3
    have hhd := hb hd (by simp)
    have hstep := gridSet_shape g hd.row hd.col (class_id_to_fen hd.class_id)
      hhd.1 h1 h2 h3 (class_id_to_fen_good hd.class_id)
    simpa using ih _ (fun q hq => hb q (by simp [hq])) hstep.1 hstep.2.1 hstep.2.2


theorem emptyGrid_cells :
    ∀ row ∈ ChessLogic.emptyGrid, ∀ oc ∈ row, ∀ p : Char,
      oc = some p → ¬ p.isDigit ∧ p ≠ '/' := by
  intro row hrow oc hoc p hp
  unfold ChessLogic.emptyGrid at hrow
  obtain rfl := List.eq_of_mem_replicate hrow
  obtain rfl := List.eq_of_mem_replicate hoc
  exact Option.noConfusion hp

/-- C10: for every detection list and orientation, the placement string
returned by `detections_to_fen` — including the neutral value returned when
no board detection passes the minimum-size filter — consists of exactly 8
'/'-separated rank fields, and in each field the piece characters plus the
empty-run digits weigh exactly 8 cells. -/
theorem detections_to_fen_shape (dets : List Yolo.Detection) (o : ChessLogic.Orientation) :
    ∃ parts : List String,
      (ChessLogic.detections_to_fen dets o).1 = String.intercalate "/" parts ∧
      parts.length = 8 ∧
      ∀ f ∈ parts, fieldWeight f = 8 ∧ ∀ c ∈ f.data, c ≠ '/' := by
  rcases hb : ChessLogic.pickBoard dets with _ | b
  · refine ⟨["8", "8", "8", "8", "8", "8", "8", "8"], ?_, by decide, ?_⟩
    · simp only [ChessLogic.detections_to_fen, hb]
      rfl
    · intro f hf
      simp only [List.mem_cons, List.not_mem_nil, or_false] at hf
      rcases hf with rfl | rfl | rfl | rfl | rfl | rfl | rfl | rfl <;>
        exact ⟨by decide, by decide⟩
  · simp only [ChessLogic.detections_to_fen, hb, Yolo.Detection.bounds]
    have hbounds : ∀ q ∈ ChessLogic.fixDuplicateKings
        (dets.filterMap (ChessLogic.detToRaw (b.x - b.w / 2) (b.y - b.h / 2)
          (b.x + b.w / 2) (b.y + b.h / 2) o)),
        q.row < 8 ∧ q.col < 8 := by
      apply fixDuplicateKings_bounds
      intro q hq
      rcases List.mem_filterMap.mp hq with ⟨d, _, hd⟩
      exact detToRaw_bounds _ _ _ _ _ _ _ hd
    have hsh := foldl_gridSet_shape
      (ChessLogic.fixDuplicateKings
        (dets.filterMap (ChessLogic.detToRaw (b.x - b.w / 2) (b.y - b.h / 2)
          (b.x + b.w / 2) (b.y + b.h / 2) o)))
      ChessLogic.emptyGrid hbounds (by decide)
      (by intro row hrow
          unfold ChessLogic.emptyGrid at hrow
          obtain rfl := List.eq_of_mem_replicate hrow
          simp)
      emptyGrid_cells
    refine ⟨_, rfl, ?_, ?_⟩
    · rw [List.length_map]
      exact hsh.1
    · intro f hf
      rcases List.mem_map.mp hf with ⟨cells, hcells, rfl⟩
      refine ⟨rowToFen_weight cells (hsh.2.1 cells hcells)
          (fun c hc => (hsh.2.2 cells hcells (some c) hc c rfl).1), ?_⟩
      exact rowToFen_noslash cells (le_of_eq (hsh.2.1 cells hcells))
        (fun c hc => (hsh.2.2 cells hcells (some c) hc c rfl).2)

end FenShape

/-! ## Claim C3: the duplicate-king heuristic -/

section DuplicateKings

open ChessLogic

theorem length_range_filter (ps : List RawPiece) (f : RawPiece → Bool) :
    ((List.range ps.length).filter (fun i => f (ps.getD i default))).length
      = (ps.filter f).length := by
  induction ps with
  | nil => simp
  | cons hd tl ih =>
    rw [List.length_cons, List.range_succ_eq_map]
    rw [List.filter_cons, List.filter_cons]
    simp only [List.getD_cons_zero]
    rw [List.filter_map]
    have hfun : ((fun i => f ((hd :: tl).getD i default)) ∘ Nat.succ)
        = (fun i => f (tl.getD i default)) := by
      funext i
      simp [Function.comp]
    rw [hfun]
    simp only [List.getD, List.get?_eq_getElem?] at ih
    by_cases h : f hd <;>
      simp only [h, if_pos, if_neg, Bool.false_eq_true, ite_true, ite_false] <;>
      simp [ih]


theorem minScan_spec (ps : List RawPiece) :
    ∀ (is : List ℕ) (acc : ℕ × ℕ),
      (is.foldl (fun (acc : ℕ × ℕ) idx =>
          if (ps.getD idx default).row < acc.1
          then ((ps.getD idx default).row, idx) else acc) acc = acc ∨
        ((is.foldl (fun (acc : ℕ × ℕ) idx =>
            if (ps.getD idx default).row < acc.1
            then ((ps.getD idx default).row, idx) else acc) acc).2 ∈ is ∧
          (ps.getD (is.foldl (fun (acc : ℕ × ℕ) idx =>
            if (ps.getD idx default).row < acc.1
            then ((ps.getD idx default).row, idx) else acc) acc).2 default).row
            = (is.foldl (fun (acc : ℕ × ℕ) idx =>
              if (ps.getD idx default).row < acc.1
              then ((ps.getD idx default).row, idx) else acc) acc).1)) ∧
      (is.foldl (fun (acc : ℕ × ℕ) idx =>
          if (ps.getD idx default).row < acc.1
          then ((ps.getD idx default).row, idx) else acc) acc).1 ≤ acc.1 ∧
      (∀ j ∈ is, (is.foldl (fun (acc : ℕ × ℕ) idx =>
          if (ps.getD idx default).row < acc.1
          then ((ps.getD idx default).row, idx) else acc) acc).1 ≤ (ps.getD j default).row) := by
  intro is
  induction is with
  | nil => exact fun acc => ⟨Or.inl rfl, le_rfl, by simp⟩
  | cons i tl ih =>
    intro acc
    simp only [List.foldl_cons]
    by_cases hstep : (ps.getD i default).row < acc.1
    · rw [if_pos hstep]
      rcases ih ((ps.getD i default).row, i) with ⟨hA, hB, hC⟩
      refine ⟨?_, le_trans hB (le_of_lt hstep), ?_⟩
      · rcases hA with h | h
        · exact Or.inr ⟨by rw [h]; simp, by rw [h]⟩
        · exact Or.inr ⟨List.mem_cons_of_mem i h.1, h.2⟩
      · intro j hj
        rcases List.mem_cons.mp hj with rfl | hj'
        · exact hB
        · exact hC j hj'
    · rw [if_neg hstep]
      rcases ih acc with ⟨hA, hB, hC⟩
      refine ⟨?_, hB, ?_⟩
      · rcases hA with h | h
        · exact Or.inl h
        · exact Or.inr ⟨List.mem_cons_of_mem i h.1, h.2⟩
      · intro j hj
        rcases List.mem_cons.mp hj with rfl | hj'
        · exact le_trans hB (not_lt.mp hstep)
        · exact hC j hj'


/-- C3, amended: the duplicate-king reclassification fires if and only if the
resolved piece detections contain at least two white kings (not exactly two)
and zero black kings; when it fires, a white king of minimal board-relative
row is reclassified as a black king, and otherwise the pieces are unchanged.
The hypotheses reflect the pipeline: resolved rows are below 8 and the piece
list stays below the code's 999 sentinel. -/
theorem fixDuplicateKings_spec (ps : List RawPiece)
    (hrow : ∀ p ∈ ps, p.row < 8) (hlen : ps.length ≤ 999) :
    (¬ (2 ≤ (ps.filter (fun p => p.class_id = 1)).length ∧
        (ps.filter (fun p => p.class_id = 7)).length = 0) →
      fixDuplicateKings ps = ps) ∧
    ((2 ≤ (ps.filter (fun p => p.class_id = 1)).length ∧
        (ps.filter (fun p => p.class_id = 7)).length = 0) →
      ∃ i : ℕ, i < ps.length ∧ (ps.getD i default).class_id = 1 ∧
        (∀ j, j < ps.length → (ps.getD j default).class_id = 1 →
          (ps.getD i default).row ≤ (ps.getD j default).row) ∧
        fixDuplicateKings ps = ps.set i { ps.getD i default with class_id := 7 }) := by
  have hwk : ((List.range ps.length).filter
      (fun i => (ps.getD i default).class_id = 1)).length
      = (ps.filter (fun p => p.class_id = 1)).length :=
    length_range_filter ps (fun p => p.class_id = 1)
  have hbk : ((List.range ps.length).filter
      (fun i => (ps.getD i default).class_id = 7)).length
      = (ps.filter (fun p => p.class_id = 7)).length :=
    length_range_filter ps (fun p => p.class_id = 7)
  constructor
  · intro hnot
    simp only [fixDuplicateKings]
    rw [if_neg]
    rintro ⟨h1, h2⟩
    exact hnot ⟨hwk ▸ h1, by rw [← hbk, h2]; simp⟩
  · rintro ⟨h1, h2⟩
    have hwks : 2 ≤ ((List.range ps.length).filter
        (fun i => (ps.getD i default).class_id = 1)).length := hwk ▸ h1
    have hbks : (List.range ps.length).filter
        (fun i => (ps.getD i default).class_id = 7) = [] := by
      rw [← List.length_eq_zero, hbk, h2]
    have hpos : 0 < ((List.range ps.length).filter
        (fun i => (ps.getD i default).class_id = 1)).length := by omega
    obtain ⟨j0, hj0⟩ := List.exists_mem_of_length_pos hpos
    have hj0' := List.mem_filter.mp hj0
    have hj0lt : j0 < ps.length := List.mem_range.mp hj0'.1
    have hj0row : (ps.getD j0 default).row < 8 := by
      rw [List.getD_eq_getElem ps default hj0lt]
      exact hrow _ (List.getElem_mem hj0lt)
    rcases minScan_spec ps ((List.range ps.length).filter
        (fun i => (ps.getD i default).class_id = 1)) (999, 999) with ⟨hA, hB, hC⟩
    have hminlt : ((((List.range ps.length).filter
        (fun i => (ps.getD i default).class_id = 1)).foldl
        (fun (acc : ℕ × ℕ) idx =>
          if (ps.getD idx default).row < acc.1
          then ((ps.getD idx default).row, idx) else acc) (999, 999))).1 < 999 :=
      lt_of_le_of_lt (hC j0 hj0) (by omega)
    rcases hA with h | h
    · rw [h] at hminlt
      exact absurd hminlt (by norm_num)
    · have hmem := List.mem_filter.mp h.1
      have hlt : (((List.range ps.length).filter
          (fun i => (ps.getD i default).class_id = 1)).foldl
          (fun (acc : ℕ × ℕ) idx =>
            if (ps.getD idx default).row < acc.1
            then ((ps.getD idx default).row, idx) else acc) (999, 999)).2
          < ps.length := List.mem_range.mp hmem.1
      refine ⟨_, hlt, by simpa using hmem.2, ?_, ?_⟩
      · intro j hj hcls
        have hjmem : j ∈ (List.range ps.length).filter
            (fun i => (ps.getD i default).class_id = 1) :=
          List.mem_filter.mpr ⟨List.mem_range.mpr hj, by simpa using hcls⟩
        rw [h.2]
        exact hC j hjmem
      · simp only [fixDuplicateKings]
        rw [if_pos ⟨hwks, hbks⟩, if_pos (by intro h999; rw [h999] at hlt; omega)]

/-- C3, counterexample.  The claim states the reclassification fires only
with exactly two white-king detections and zero black-king ones.  With three
resolved white kings (rows 1, 4, 6) and zero black kings the code's `>= 2`
guard still fires: the emitted placement contains a black king at row 1 even
though no black-king detection exists and the white-king count is 3, not 2. -/
theorem duplicate_king_three_kings_counterexample :
    (([Inputs.boardDet, Inputs.wkRow1, Inputs.wkRow4, Inputs.wkRow6].filterMap
        (detToRaw 0 0 1 1 .WhiteBottom)).filter
        (fun p => p.class_id = 1)).length = 3 ∧
    (([Inputs.boardDet, Inputs.wkRow1, Inputs.wkRow4, Inputs.wkRow6].filterMap
        (detToRaw 0 0 1 1 .WhiteBottom)).filter
        (fun p => p.class_id = 7)).length = 0 ∧
    (detections_to_fen [Inputs.boardDet, Inputs.wkRow1, Inputs.wkRow4, Inputs.wkRow6]
        .WhiteBottom).1 = "8/k7/8/8/K7/8/K7/8" := by
  refine ⟨?_, ?_, ?_⟩
  · norm_num [detToRaw, point_to_square, Inputs.boardDet, Inputs.wkRow1, Inputs.wkRow4,
      Inputs.wkRow6, List.filterMap, Int.floor_eq_iff]
  · norm_num [detToRaw, point_to_square, Inputs.boardDet, Inputs.wkRow1, Inputs.wkRow4,
      Inputs.wkRow6, List.filterMap, Int.floor_eq_iff]
  · norm_num [detections_to_fen, pickBoard, detToRaw, point_to_square, fixDuplicateKings,
      gridSet, emptyGrid, rowToFen, rowToFenAux, class_id_to_fen, Yolo.Detection.bounds,
      Inputs.boardDet, Inputs.wkRow1, Inputs.wkRow4, Inputs.wkRow6,
      List.filter, List.filterMap, Nat.repr, Nat.toDigits, Nat.toDigitsCore,
      String.intercalate, List.intercalate, Int.floor_eq_iff]
    rfl

/-- Witness for the amended C3 theorem: two white kings at rows 1 and 6 and
zero black kings; the heuristic reclassifies the row-1 king. -/
theorem fixDuplicateKings_spec_witness :
    ∃ i : ℕ, i < ([⟨1, 0, 1, 1⟩, ⟨6, 0, 1, 1⟩] : List RawPiece).length ∧
      (([⟨1, 0, 1, 1⟩, ⟨6, 0, 1, 1⟩] : List RawPiece).getD i default).class_id = 1 ∧
      (∀ j, j < ([⟨1, 0, 1, 1⟩, ⟨6, 0, 1, 1⟩] : List RawPiece).length →
        (([⟨1, 0, 1, 1⟩, ⟨6, 0, 1, 1⟩] : List RawPiece).getD j default).class_id = 1 →
        (([⟨1, 0, 1, 1⟩, ⟨6, 0, 1, 1⟩] : List RawPiece).getD i default).row ≤
          (([⟨1, 0, 1, 1⟩, ⟨6, 0, 1, 1⟩] : List RawPiece).getD j default).row) ∧
      fixDuplicateKings [⟨1, 0, 1, 1⟩, ⟨6, 0, 1, 1⟩] =
        ([⟨1, 0, 1, 1⟩, ⟨6, 0, 1, 1⟩] : List RawPiece).set i
          { ([⟨1, 0, 1, 1⟩, ⟨6, 0, 1, 1⟩] : List RawPiece).getD i default with
            class_id := 7 } :=
  (fixDuplicateKings_spec [⟨1, 0, 1, 1⟩, ⟨6, 0, 1, 1⟩]
    (by intro p hp
        rcases List.mem_cons.mp hp with rfl | hp
        · norm_num
        rcases List.mem_cons.mp hp with rfl | hp
        · norm_num
        · simp at hp)
    (by norm_num)).2
    (by constructor <;> norm_num [List.filter])

end DuplicateKings

/-! ## Claim C1: king-count validation of the board reconstructor -/

section KingValidation

open VisionBoard

theorem vclass_to_char_good (id : ℕ) (c : Char) (h : vclass_to_char id = some c) :
    ¬ c.isDigit ∧ c ≠ '/' := by
  by_cases hid : id ≤ 12
  · interval_cases id <;> simp [vclass_to_char] at h <;> subst h <;> decide
  · have hnone : vclass_to_char id = none := by
      unfold vclass_to_char
      repeat rw [if_neg (by omega)]
    rw [hnone] at h
    exact Option.noConfusion h

theorem placeDetection_shape (bx byy bw bh : ℚ) (g : List (List (Option Char)))
    (d : VDetection) (h1 : g.length = 8) (h2 : ∀ row ∈ g, row.length = 8)
    (h3 : ∀ row ∈ g, ∀ oc ∈ row, ∀ p : Char, oc = some p → ¬ p.isDigit ∧ p ≠ '/') :
    (placeDetection bx byy bw bh g d).length = 8 ∧
    (∀ row ∈ placeDetection bx byy bw bh g d, row.length = 8) ∧
    (∀ row ∈ placeDetection bx byy bw bh g d, ∀ oc ∈ row, ∀ p : Char,
        oc = some p → ¬ p.isDigit ∧ p ≠ '/') := by
  unfold placeDetection
  by_cases h0 : d.class_id = 0
  · rw [if_pos h0]
    exact ⟨h1, h2, h3⟩
  · rw [if_neg h0]
    rcases hvc : vclass_to_char d.class_id with _ | c
    · exact ⟨h1, h2, h3⟩
    · simp only
      by_cases hg : 0 ≤ ⌊(d.bbox0 - bx) / bw * 8⌋ ∧ ⌊(d.bbox0 - bx) / bw * 8⌋ < 8 ∧
          0 ≤ ⌊(d.bbox1 - byy) / bh * 8⌋ ∧ ⌊(d.bbox1 - byy) / bh * 8⌋ < 8
      · rw [if_pos hg]
        exact gridSet_shape g _ _ c (by omega) h1 h2 h3 (vclass_to_char_good _ c hvc)
      · rw [if_neg hg]
        exact ⟨h1, h2, h3⟩

theorem foldl_placeDetection_shape (bx byy bw bh : ℚ) :
    ∀ (ds : List VDetection) (g : List (List (Option Char))),
      g.length = 8 → (∀ row ∈ g, row.length = 8) →
      (∀ row ∈ g, ∀ oc ∈ row, ∀ p : Char, oc = some p → ¬ p.isDigit ∧ p ≠ '/') →
      (ds.foldl (placeDetection bx byy bw bh) g).length = 8 ∧
      (∀ row ∈ ds.foldl (placeDetection bx byy bw bh) g, row.length = 8) ∧
      (∀ row ∈ ds.foldl (placeDetection bx byy bw bh) g, ∀ oc ∈ row, ∀ p : Char,
          oc = some p → ¬ p.isDigit ∧ p ≠ '/') := by
  intro ds
  induction ds with
  | nil => intro g h1 h2 h3; exact ⟨h1, h2, h3⟩
  | cons hd tl ih =>
    intro g h1 h2 h3
    have hstep := placeDetection_shape bx byy bw bh g hd h1 h2 h3
    simpa using ih _ hstep.1 hstep.2.1 hstep.2.2


theorem vision_parts_shape (bx byy bw bh : ℚ) (dets : List VDetection) :
    ((dets.foldl (placeDetection bx byy bw bh) ChessLogic.emptyGrid).map
      ChessLogic.rowToFen).length = 8 ∧
    ∀ f ∈ (dets.foldl (placeDetection bx byy bw bh) ChessLogic.emptyGrid).map
        ChessLogic.rowToFen,
      fieldWeight f = 8 ∧ ∀ c ∈ f.data, c ≠ '/' := by
  have hsh := foldl_placeDetection_shape bx byy bw bh dets ChessLogic.emptyGrid
    (by decide)
    (by intro row hrow
        unfold ChessLogic.emptyGrid at hrow
        obtain rfl := List.eq_of_mem_replicate hrow
        simp)
    emptyGrid_cells
  constructor
  · rw [List.length_map]
    exact hsh.1
  · intro f hf
    rcases List.mem_map.mp hf with ⟨cells, hcells, rfl⟩
    refine ⟨rowToFen_weight cells (hsh.2.1 cells hcells)
        (fun c hc => (hsh.2.2 cells hcells (some c) hc c rfl).1), ?_⟩
    exact rowToFen_noslash cells (le_of_eq (hsh.2.1 cells hcells))
      (fun c hc => (hsh.2.2 cells hcells (some c) hc c rfl).2)

/-- C1: if the white-king or black-king detection count differs from one,
the validating board reconstructor (`src/vision/board.rs`) emits no placement
string; with exactly one king per color it emits a non-empty FEN whose
placement field consists of 8 correctly separated rank fields of cell
weight 8. -/
theorem vision_fen_king_validation (dets : List VDetection) (show_white : Bool) :
    ((white_king_count dets ≠ 1 ∨ black_king_count dets ≠ 1) →
      VisionBoard.detections_to_fen dets show_white = none) ∧
    ((white_king_count dets = 1 ∧ black_king_count dets = 1) →
      ∃ s parts, VisionBoard.detections_to_fen dets show_white = some s ∧ s ≠ "" ∧
        s = String.intercalate "/" parts ++ " " ++ (if show_white then "w" else "b")
          ++ " - - 0 1" ∧
        parts.length = 8 ∧ ∀ f ∈ parts, fieldWeight f = 8 ∧ ∀ c ∈ f.data, c ≠ '/') := by
  constructor
  · intro h
    simp only [VisionBoard.detections_to_fen]
    rw [if_pos h]
  · rintro ⟨h1, h2⟩
    have hcond : ¬ (white_king_count dets ≠ 1 ∨ black_king_count dets ≠ 1) := by
      rintro (h | h) <;> exact h (by assumption)
    simp only [VisionBoard.detections_to_fen]
    rcases hbb : dets.find? (fun d => d.class_id = 0) with _ | b <;>
      simp only [hbb] <;> rw [if_neg hcond]
    · obtain ⟨hlen8, hfields⟩ := vision_parts_shape 0 0 640 640 dets
      refine ⟨_, _, rfl, ?_, rfl, hlen8, hfields⟩
      intro heq
      have hlen := congrArg String.length heq
      rw [String.length_append, String.length_append, String.length_append] at hlen
      have h8 : String.length " - - 0 1" = 8 := rfl
      rw [h8] at hlen
      simp at hlen
    · obtain ⟨hlen8, hfields⟩ := vision_parts_shape (b.bbox0 - b.bbox2 / 2)
        (b.bbox1 - b.bbox3 / 2) b.bbox2 b.bbox3 dets
      refine ⟨_, _, rfl, ?_, rfl, hlen8, hfields⟩
      intro heq
      have hlen := congrArg String.length heq
      rw [String.length_append, String.length_append, String.length_append] at hlen
      have h8 : String.length " - - 0 1" = 8 := rfl
      rw [h8] at hlen
      simp at hlen

/-- Witness for C1: an empty detection list has zero kings, so no placement
string is emitted. -/
theorem vision_fen_king_validation_witness :
    VisionBoard.detections_to_fen [] true = none :=
  (vision_fen_king_validation [] true).1
    (Or.inl (by norm_num [VisionBoard.white_king_count]))

end KingValidation

/-! ## Claim C5: multipv parsing and ordering -/

theorem bestmove_not_info (s : String) (h : startsWithStr s "bestmove" = true) :
    startsWithStr s "info" = false := by
  unfold startsWithStr at h ⊢
  rw [show "bestmove".data = ['b','e','s','t','m','o','v','e'] from rfl] at h
  rw [show "info".data = ['i','n','f','o'] from rfl]
  rcases hd : s.data with _ | ⟨c, cs⟩ <;> rw [hd] at h
  · simp [startsWithL] at h
  · simp only [startsWithL, Bool.and_eq_true, decide_eq_true_eq] at h
    obtain ⟨rfl, -⟩ := h
    simp [startsWithL]

theorem gtmUpdate_bestmove (m : List (ℕ × String)) (t : String)
    (h : startsWithStr t "bestmove" = true) :
    Engine.gtmUpdate m t = m := by
  unfold Engine.gtmUpdate
  rw [if_neg]
  intro hcond
  have := hcond.1
  rw [bestmove_not_info t h] at this
  exact absurd this (by simp)

theorem gtmLoop_through_infos :
    ∀ (infos : List String) (m : List (ℕ × String)) (bm : String) (rest : List String),
      startsWithStr (trimStr bm) "bestmove" = true →
      (∀ l ∈ infos, startsWithStr (trimStr l) "bestmove" = false) →
      Engine.gtmLoop (infos ++ bm :: rest) m
        = (if infos.foldl (fun m l => Engine.gtmUpdate m (trimStr l)) m = [] then
             match (splitWhitespaceStr (trimStr bm)).get? 1 with
             | some mv => .ok [mv]
             | none => .ok (Engine.sortedValues
                 (infos.foldl (fun m l => Engine.gtmUpdate m (trimStr l)) m))
           else .ok (Engine.sortedValues
               (infos.foldl (fun m l => Engine.gtmUpdate m (trimStr l)) m))) := by
  intro infos
  induction infos with
  | nil =>
    intro m bm rest hbm _
    simp only [List.nil_append, List.foldl_nil, Engine.gtmLoop,
      gtmUpdate_bestmove m (trimStr bm) hbm]
    rw [if_pos hbm]
  | cons l ls ih =>
    intro m bm rest hbm hinfos
    have hl : startsWithStr (trimStr l) "bestmove" = false := hinfos l (by simp)
    simp only [List.cons_append, Engine.gtmLoop, List.foldl_cons]
    rw [if_neg (by rw [hl]; simp)]
    exact ih (Engine.gtmUpdate m (trimStr l)) bm rest hbm
      (fun x hx => hinfos x (by simp [hx]))

/-- C5: for every engine output consisting of lines without `bestmove`
followed by a `bestmove` line, `get_top_moves` returns the moves recorded
from the `multipv` info lines in ascending PV-index order (index 1 = best).
The per-line update `gtmUpdate` overwrites the move recorded for a repeated
PV index, mirroring `HashMap::insert`. -/
theorem get_top_moves_multipv_order (fen : String) (depth : ℕ)
    (infos : List String) (bm : String) (rest : List String)
    (hbm : startsWithStr (trimStr bm) "bestmove" = true)
    (hinfos : ∀ l ∈ infos, startsWithStr (trimStr l) "bestmove" = false)
    (hne : infos.foldl (fun m l => Engine.gtmUpdate m (trimStr l)) [] ≠ []) :
    Engine.get_top_moves fen depth (infos ++ bm :: rest)
      = .ok (Engine.sortedValues
          (infos.foldl (fun m l => Engine.gtmUpdate m (trimStr l)) [])) := by
  unfold Engine.get_top_moves
  rw [gtmLoop_through_infos infos [] bm rest hbm hinfos, if_neg hne]

/-- Witness for C5: the spec's example lines yield `["e2e4", "d2d4"]`. -/
theorem get_top_moves_multipv_order_witness :
    Engine.get_top_moves "startpos" 12
      ["info depth 10 seldepth 12 multipv 2 score cp 30 pv d2d4 d7d5",
       "info depth 12 seldepth 14 multipv 1 score cp 35 pv e2e4 e7e5",
       "bestmove e2e4"]
      = .ok ["e2e4", "d2d4"] :=
  (get_top_moves_multipv_order "startpos" 12
      ["info depth 10 seldepth 12 multipv 2 score cp 30 pv d2d4 d7d5",
       "info depth 12 seldepth 14 multipv 1 score cp 35 pv e2e4 e7e5"]
      "bestmove e2e4" [] (by rfl) (by decide) (by decide)).trans (by rfl)

/-! ## Claim C4: the analysis timeout path -/

section AnalyzeTimeout

open EngineStockfish

theorem analyzeLoop_timeout (timeout t : ℚ) (ev : ReadEv) (after : List (ℚ × ReadEv))
    (ht : timeout < t) :
    ∀ (before : List (ℚ × ReadEv)) (acc : List String),
      (∀ p ∈ before, p.1 ≤ timeout ∧ ∃ l, p.2 = ReadEv.line l ∧ l ≠ "" ∧
          containsStr l "bestmove" = false) →
      analyzeLoop timeout (before ++ (t, ev) :: after) acc
        = .ok (collectEvents before acc, true) := by
  intro before
  induction before with
  | nil =>
    intro acc _
    simp only [List.nil_append, analyzeLoop, collectEvents, List.foldl_nil]
    rw [if_pos ht]
  | cons hd tl ih =>
    intro acc hbefore
    obtain ⟨hle, l, hline, hne, hnb⟩ := hbefore hd (by simp)
    simp only [List.cons_append, analyzeLoop]
    rw [if_neg (not_lt.mpr hle), hline]
    simp only
    rw [if_neg hne, if_neg (by rw [hnb]; simp)]
    show analyzeLoop timeout (tl ++ (t, ev) :: after) (collectStep acc l)
        = Except.ok (collectEvents (hd :: tl) acc, true)
    rw [ih (collectStep acc l) (fun p hp => hbefore p (by simp [hp]))]
    simp only [collectEvents, List.foldl_cons, hline]

/-- C4: if the wall-clock timeout expires before any line containing
`bestmove` (or an empty EOF line, or an I/O error) is read, `analyze` sends
`stop` (the loop result's `true` flag) and returns successfully whatever
principal-variation moves were collected so far — possibly the empty list —
rather than an error. -/
theorem analyze_timeout_returns_partial (timeout t : ℚ) (before after : List (ℚ × ReadEv))
    (ev : ReadEv) (n : ℕ)
    (hbefore : ∀ p ∈ before, p.1 ≤ timeout ∧ ∃ l, p.2 = ReadEv.line l ∧ l ≠ "" ∧
        containsStr l "bestmove" = false)
    (ht : timeout < t) :
    analyze timeout (before ++ (t, ev) :: after) n
      = .ok ((collectEvents before []).reverse.take n) ∧
    analyzeLoop timeout (before ++ (t, ev) :: after) []
      = .ok (collectEvents before [], true) := by
  have hloop := analyzeLoop_timeout timeout t ev after ht before [] hbefore
  refine ⟨?_, hloop⟩
  unfold analyze
  rw [hloop]
  rfl

/-- Witness for C4: one PV line read at 1 s, timeout 5 s expiring at the 6 s
read: `stop` is sent and `["e2e4"]` is returned successfully. -/
theorem analyze_timeout_returns_partial_witness :
    analyze 5 [((1 : ℚ), ReadEv.line "info depth 8 multipv 1 pv e2e4 e7e5"),
               ((6 : ℚ), ReadEv.line "info depth 9 multipv 1 pv d2d4")] 3
      = .ok ["e2e4"] ∧
    analyzeLoop 5 [((1 : ℚ), ReadEv.line "info depth 8 multipv 1 pv e2e4 e7e5"),
               ((6 : ℚ), ReadEv.line "info depth 9 multipv 1 pv d2d4")] []
      = .ok (["e2e4"], true) := by
  have h := analyze_timeout_returns_partial 5 6
    [((1 : ℚ), ReadEv.line "info depth 8 multipv 1 pv e2e4 e7e5")] []
    (ReadEv.line "info depth 9 multipv 1 pv d2d4") 3
    (by
      intro p hp
      simp only [List.mem_singleton] at hp
      subst hp
      exact ⟨by norm_num, "info depth 8 multipv 1 pv e2e4 e7e5", rfl, by decide, by rfl⟩)
    (by norm_num)
  exact ⟨h.1.trans (by rfl), h.2.trans (by rfl)⟩

end AnalyzeTimeout

end MoveOverlay
